import Mathlib

/-!
Formal model of the stable-matching system: the hospital-proposing
Gale-Shapley engine of src/matcher.py (`gale_shapley`) and the
validity/stability verifier of src/verifier.py (`check_validity`,
`check_stability`, and the classification performed by `main`).

Match arrays are modelled as `List (Option Nat)`, where `none` stands for
the `-1` unmatched sentinel of the Python code; preference tables are
`List (List Nat)` of 0-indexed agent indices, exactly the structures the
Python functions receive after parsing.
-/

/-- Reads an entry of a match array; `none` models the `-1` sentinel. -/
def getO (l : List (Option Nat)) (i : Nat) : Option Nat := l.getD i none

/-- Reads an entry of a numeric array (cursor array, ranking row). -/
def getN (l : List Nat) (i : Nat) : Nat := l.getD i 0

/-- Reads a row of a preference or ranking table. -/
def getRow (t : List (List Nat)) (i : Nat) : List Nat := t.getD i []

/-- Models the Python loop `for rank, x in enumerate(row): acc[x] = rank`,
threading the accumulator array and the running rank. -/
def setRanks (acc : List Nat) : List Nat → Nat → List Nat
  | [], _ => acc
  | x :: rest, rank => setRanks (acc.set x rank) rest (rank + 1)

/-- One ranking row: `ranking = [0] * n; for rank, x in enumerate(row):
ranking[x] = rank` (matcher.py lines 56-60, verifier.py lines 114-127). -/
def buildRankingRow (n : Nat) (row : List Nat) : List Nat :=
  setRanks (List.replicate n 0) row 0

/-- Full ranking table for one side, one row per agent. -/
def buildRanking (n : Nat) (prefs : List (List Nat)) : List (List Nat) :=
  prefs.map (buildRankingRow n)

/-- Mutable state of the engine's main loop: `hospital_match`,
`student_match`, `next_proposal`, `proposal_count` (matcher.py lines 44-63). -/
structure GSState where
  hospital_match : List (Option Nat)
  student_match : List (Option Nat)
  next_proposal : List Nat
  proposal_count : Nat
deriving Repr, DecidableEq

/-- Initial engine state: everyone unmatched, all cursors at 0. -/
def initState (n : Nat) : GSState :=
  { hospital_match := List.replicate n none
    student_match := List.replicate n none
    next_proposal := List.replicate n 0
    proposal_count := 0 }

/-- The scan of matcher.py lines 68-72: the first hospital (ascending) that
is unmatched and still has students left to propose to. -/
def findFree (n : Nat) (st : GSState) : Option Nat :=
  (List.range n).find? fun h =>
    decide (getO st.hospital_match h = none ∧ getN st.next_proposal h < n)

/-- One iteration of the engine's main loop body for the chosen free
hospital `h` (matcher.py lines 78-97): propose to the next student on
`h`'s list, then accept / upgrade / reject exactly as the code does. -/
def propose (hospital_prefs student_ranking : List (List Nat))
    (st : GSState) (h : Nat) : GSState :=
  let student := getN (getRow hospital_prefs h) (getN st.next_proposal h)
  let st1 : GSState :=
    { st with
      next_proposal := st.next_proposal.set h (getN st.next_proposal h + 1)
      proposal_count := st.proposal_count + 1 }
  match getO st1.student_match student with
  | none =>
      { st1 with
        hospital_match := st1.hospital_match.set h (some student)
        student_match := st1.student_match.set student (some h) }
  | some current =>
      if getN (getRow student_ranking student) h
          < getN (getRow student_ranking student) current then
        { st1 with
          hospital_match := (st1.hospital_match.set current none).set h (some student)
          student_match := st1.student_match.set student (some h) }
      else st1

/-- Fuelled unfolding of the engine's `while True` loop: stop when no free
hospital remains, otherwise run one `propose` iteration. -/
def gsRun (n : Nat) (hospital_prefs student_ranking : List (List Nat)) :
    Nat → GSState → GSState
  | 0, st => st
  | fuel + 1, st =>
      match findFree n st with
      | none => st
      | some h => gsRun n hospital_prefs student_ranking fuel
          (propose hospital_prefs student_ranking st h)

/-- The engine `gale_shapley(n, hospital_prefs, student_prefs)` of
matcher.py lines 40-99; `n * n` fuel is enough, as proved below, so this
is the exact final `hospital_match` the Python loop returns. -/
def gale_shapley (n : Nat) (hospital_prefs student_prefs : List (List Nat)) :
    List (Option Nat) :=
  (gsRun n hospital_prefs (buildRanking n student_prefs) (n * n)
    (initState n)).hospital_match

/-- Structured form of the `(False, message)` results of `check_validity`
(verifier.py lines 73-99): each constructor carries exactly the indices the
corresponding message interpolates (0-indexed; the code prints them +1). -/
inductive ValidityResult where
  | valid
  | unmatchedHospital (h : Nat)
  | duplicateStudent (s h1 h2 : Nat)
  | unmatchedStudents (students : List Nat)
deriving Repr, DecidableEq

/-- First hospital with no assigned student (verifier.py lines 78-80). -/
def findUnmatchedHospital (n : Nat) (matching : List (Option Nat)) : Option Nat :=
  (List.range n).find? fun h => decide (getO matching h = none)

/-- The `student_matched_to` dictionary loop of verifier.py lines 83-88:
scan hospitals in order, return the first duplicate student together with
the two conflicting hospitals, or the final dictionary if none is found. -/
def dictScan (matching : List (Option Nat)) (seen : List (Nat × Nat)) :
    List Nat → Option (Nat × Nat × Nat) × List (Nat × Nat)
  | [] => (none, seen)
  | h :: rest =>
      let s := (getO matching h).getD 0
      match seen.lookup s with
      | some h1 => (some (s, h1, h), seen)
      | none => dictScan matching ((s, h) :: seen) rest

/-- `check_validity(n, matching)` of verifier.py lines 73-99. -/
def check_validity (n : Nat) (matching : List (Option Nat)) : ValidityResult :=
  match findUnmatchedHospital n matching with
  | some h => .unmatchedHospital h
  | none =>
      match dictScan matching [] (List.range n) with
      | (some (s, h1, h2), _) => .duplicateStudent s h1 h2
      | (none, seen) =>
          if seen.length ≠ n then
            .unmatchedStudents ((List.range n).filter fun s => (seen.lookup s).isNone)
          else .valid

/-- The inverse-pairing construction of verifier.py lines 107-110:
`student_match = [None]*n; for h in range(n): student_match[matching[h]] = h`. -/
def buildStudentMatchAux (matching : List (Option Nat)) (acc : List (Option Nat)) :
    List Nat → List (Option Nat)
  | [] => acc
  | h :: rest =>
      buildStudentMatchAux matching (acc.set ((getO matching h).getD 0) (some h)) rest

/-- Inverse pairing used by the stability check. -/
def buildStudentMatch (n : Nat) (matching : List (Option Nat)) : List (Option Nat) :=
  buildStudentMatchAux matching (List.replicate n none) (List.range n)

/-- Loop body test of verifier.py lines 132-146 for one `(h, s)` pair:
skip when already matched to each other, otherwise blocking when both
strictly prefer each other to their current partners. -/
def isBlockingAt (hospital_ranking student_ranking : List (List Nat))
    (matching student_match : List (Option Nat)) (h s : Nat) : Bool :=
  let current_student := (getO matching h).getD 0
  let current_hospital := (getO student_match s).getD 0
  if current_student = s then false
  else
    decide (getN (getRow hospital_ranking h) s
        < getN (getRow hospital_ranking h) current_student) &&
    decide (getN (getRow student_ranking s) h
        < getN (getRow student_ranking s) current_hospital)

/-- The double loop of verifier.py lines 130-146: outer index from `hs` in
order, inner scan of `ss` in order, first hit returned. -/
def findBlocking (pred : Nat → Nat → Bool) : List Nat → List Nat → Option (Nat × Nat)
  | [], _ => none
  | h :: hs, ss =>
      match ss.find? (pred h) with
      | some s => some (h, s)
      | none => findBlocking pred hs ss

/-- `check_stability(n, hospital_prefs, student_prefs, matching)` of
verifier.py lines 102-148; `some (h, s)` models the
`(False, "UNSTABLE: Blocking pair (Hospital h+1, Student s+1)")` return,
`none` models `(True, "")`. -/
def check_stability (n : Nat) (hospital_prefs student_prefs : List (List Nat))
    (matching : List (Option Nat)) : Option (Nat × Nat) :=
  let student_match := buildStudentMatch n matching
  let hospital_ranking := buildRanking n hospital_prefs
  let student_ranking := buildRanking n student_prefs
  findBlocking
    (isBlockingAt hospital_ranking student_ranking matching student_match)
    (List.range n) (List.range n)

/-- The three terminal classifications printed by verifier.py `main`. -/
inductive Verdict where
  | invalid (r : ValidityResult)
  | unstable (h s : Nat)
  | stable
deriving Repr, DecidableEq

/-- The classification logic of verifier.py lines 170-183: validity first,
stability only when validity passed. -/
def verify (n : Nat) (hospital_prefs student_prefs : List (List Nat))
    (matching : List (Option Nat)) : Verdict :=
  match check_validity n matching with
  | .valid =>
      match check_stability n hospital_prefs student_prefs matching with
      | some (h, s) => .unstable h s
      | none => .stable
  | r => .invalid r

/-- A preference row is a permutation of `0..n-1`. -/
def IsPerm (n : Nat) (row : List Nat) : Prop :=
  row.length = n ∧ row.Nodup ∧ ∀ x ∈ row, x < n

instance (n : Nat) (row : List Nat) : Decidable (IsPerm n row) := by
  unfold IsPerm; infer_instance

/-- A full preference table: `n` rows, each a permutation of `0..n-1`. -/
def PermTable (n : Nat) (t : List (List Nat)) : Prop :=
  t.length = n ∧ ∀ i, i < n → IsPerm n (getRow t i)

instance (n : Nat) (t : List (List Nat)) : Decidable (PermTable n t) := by
  unfold PermTable; infer_instance

/-- Rank of `x` in a preference row: its position in the list (the spec's
notion "rank", lower = more preferred). -/
def rankOf (row : List Nat) (x : Nat) : Nat := row.findIdx (· == x)

/-! Spec-level notions: perfect matching, blocking pair, stable matching
(used to state proposer-optimality and the verifier's contract). -/

/-- A perfect matching viewed from the proposer side: total on `0..n-1`,
receiver indices in range, no receiver repeated. -/
def IsMatching (n : Nat) (M : Nat → Nat) : Prop :=
  (∀ h, h < n → M h < n) ∧
  ∀ h1, h1 < n → ∀ h2, h2 < n → M h1 = M h2 → h1 = h2

/-- Blocking pair `(h, s)` of a matching `M`: not matched to each other,
`h` strictly prefers `s` to its own partner, and `s` strictly prefers `h`
to whichever hospital is matched to `s`. Ranks are positions in the
preference rows (lower = better). -/
def Blocks (n : Nat) (hospital_prefs student_prefs : List (List Nat))
    (M : Nat → Nat) (h s : Nat) : Prop :=
  M h ≠ s ∧
  rankOf (getRow hospital_prefs h) s < rankOf (getRow hospital_prefs h) (M h) ∧
  ∀ h2, h2 < n → M h2 = s →
    rankOf (getRow student_prefs s) h < rankOf (getRow student_prefs s) h2

/-- A stable matching of the instance: perfect and without blocking pairs. -/
def IsStable (n : Nat) (hospital_prefs student_prefs : List (List Nat))
    (M : Nat → Nat) : Prop :=
  IsMatching n M ∧
  ∀ h, h < n → ∀ s, s < n → ¬ Blocks n hospital_prefs student_prefs M h s

instance (n : Nat) (hospital_prefs student_prefs : List (List Nat)) (M : Nat → Nat) :
    Decidable (IsStable n hospital_prefs student_prefs M) := by
  unfold IsStable IsMatching Blocks; infer_instance

/-- One iteration of the engine's main loop as a relation on states. -/
def GSStep (n : Nat) (hospital_prefs student_ranking : List (List Nat))
    (st st' : GSState) : Prop :=
  ∃ h, findFree n st = some h ∧
    st' = propose hospital_prefs student_ranking st h

/-- States reachable by the engine's main loop from the initial state. -/
inductive GSReach (n : Nat) (hospital_prefs student_ranking : List (List Nat)) :
    GSState → Prop where
  | init : GSReach n hospital_prefs student_ranking (initState n)
  | step {st st' : GSState} :
      GSReach n hospital_prefs student_ranking st →
      GSStep n hospital_prefs student_ranking st st' →
      GSReach n hospital_prefs student_ranking st'

/-- The run invariant of the engine's main loop (matcher.py lines 66-98).
`agree` is the mutual consistency of the two match maps, `cursor` says a
matched hospital is matched to the last student it proposed to, `proposed`
says every student already proposed to is matched at least as well as the
proposing hospital, `rejected` says a proposal that did not stick can never
be a pair of any stable matching, and `count` tracks the proposal counter
against the total remaining cursor budget. -/
structure GSInv (n : Nat) (hospital_prefs student_prefs : List (List Nat))
    (st : GSState) : Prop where
  len_hm : st.hospital_match.length = n
  len_sm : st.student_match.length = n
  len_np : st.next_proposal.length = n
  np_le : ∀ h, h < n → getN st.next_proposal h ≤ n
  hm_lt : ∀ h s, h < n → getO st.hospital_match h = some s → s < n
  sm_lt : ∀ s h2, s < n → getO st.student_match s = some h2 → h2 < n
  agree : ∀ h s, h < n → s < n →
    (getO st.hospital_match h = some s ↔ getO st.student_match s = some h)
  cursor : ∀ h s, h < n → getO st.hospital_match h = some s →
    0 < getN st.next_proposal h ∧
      getN (getRow hospital_prefs h) (getN st.next_proposal h - 1) = s
  proposed : ∀ h k, h < n → k < getN st.next_proposal h →
    ∃ h2, getO st.student_match (getN (getRow hospital_prefs h) k) = some h2 ∧
      getN (getRow (buildRanking n student_prefs)
        (getN (getRow hospital_prefs h) k)) h2 ≤
      getN (getRow (buildRanking n student_prefs)
        (getN (getRow hospital_prefs h) k)) h
  rejected : ∀ h k, h < n → k < getN st.next_proposal h →
    getO st.hospital_match h ≠ some (getN (getRow hospital_prefs h) k) →
    ∀ M, IsStable n hospital_prefs student_prefs M →
      M h ≠ getN (getRow hospital_prefs h) k
  count : st.proposal_count +
    (Finset.range n).sum (fun h => n - getN st.next_proposal h) = n * n

/-- The final loop state of one engine run (with the `n * n` fuel bound
that the termination theorem shows suffices). -/
def gsFinal (n : Nat) (hospital_prefs student_prefs : List (List Nat)) : GSState :=
  gsRun n hospital_prefs (buildRanking n student_prefs) (n * n) (initState n)

/-- The spec's notion of a blocking pair of a candidate pairing: `p` and
`r` are not matched to each other, `p` strictly prefers `r` to its
assigned receiver, and `r` strictly prefers `p` to whichever proposer is
assigned to `r` (ranks are positions in the preference rows). -/
def SpecBlocking (n : Nat) (hospital_prefs student_prefs : List (List Nat))
    (matching : List (Option Nat)) (p r : Nat) : Prop :=
  p < n ∧ r < n ∧ getO matching p ≠ some r ∧
  (∀ s, getO matching p = some s →
    rankOf (getRow hospital_prefs p) r < rankOf (getRow hospital_prefs p) s) ∧
  (∀ q, q < n → getO matching q = some r →
    rankOf (getRow student_prefs r) p < rankOf (getRow student_prefs r) q)

-- Sanity: the spec's round-trip scenario (section 8, n = 3).
example : gale_shapley 3 [[0,1,2],[1,0,2],[0,1,2]] [[1,0,2],[0,1,2],[0,1,2]]
    = [some 0, some 1, some 2] := by decide

example : verify 3 [[0,1,2],[1,0,2],[0,1,2]] [[1,0,2],[0,1,2],[0,1,2]]
    (gale_shapley 3 [[0,1,2],[1,0,2],[0,1,2]] [[1,0,2],[0,1,2],[0,1,2]])
    = Verdict.stable := by decide

-- Sanity: the spec's invalid scenario (pairing {0:1, 1:1}).
example : check_validity 2 [some 1, some 1] = ValidityResult.duplicateStudent 1 0 1 := by
  decide

-- Sanity: the spec's trivial scenario (n = 1).
example : verify 1 [[0]] [[0]] (gale_shapley 1 [[0]] [[0]]) = Verdict.stable := by decide

/-! Basic facts about the array accessors and `List.set`. -/

theorem getD_set_self {α : Type} (l : List α) (i : Nat) (v d : α) (h : i < l.length) :
    (l.set i v).getD i d = v := by
  rw [List.getD_eq_getElem _ _ (by simpa using h)]
  exact List.getElem_set_self _

theorem getD_set_ne {α : Type} (l : List α) (i j : Nat) (v d : α) (h : i ≠ j) :
    (l.set i v).getD j d = l.getD j d := by
  by_cases hj : j < l.length
  · rw [List.getD_eq_getElem _ _ (by simpa using hj), List.getD_eq_getElem _ _ hj]
    exact List.getElem_set_ne h _
  · rw [List.getD_eq_default _ _ (by simpa using Nat.le_of_not_lt hj),
      List.getD_eq_default _ _ (Nat.le_of_not_lt hj)]

theorem getD_replicate_lt {α : Type} (n i : Nat) (a d : α) (h : i < n) :
    (List.replicate n a).getD i d = a := by
  rw [List.getD_eq_getElem _ _ (by simpa using h)]
  exact List.getElem_replicate a _

theorem getO_set_self (l : List (Option Nat)) (i : Nat) (v : Option Nat)
    (h : i < l.length) : getO (l.set i v) i = v := getD_set_self l i v none h

theorem getO_set_ne (l : List (Option Nat)) (i j : Nat) (v : Option Nat)
    (h : i ≠ j) : getO (l.set i v) j = getO l j := getD_set_ne l i j v none h

theorem getN_set_self (l : List Nat) (i v : Nat) (h : i < l.length) :
    getN (l.set i v) i = v := getD_set_self l i v 0 h

theorem getN_set_ne (l : List Nat) (i j v : Nat) (h : i ≠ j) :
    getN (l.set i v) j = getN l j := getD_set_ne l i j v 0 h

theorem getO_replicate (n i : Nat) (h : i < n) :
    getO (List.replicate n (none : Option Nat)) i = none :=
  getD_replicate_lt n i none none h

theorem getN_replicate_zero (n i : Nat) (h : i < n) :
    getN (List.replicate n 0) i = 0 := getD_replicate_lt n i 0 0 h

theorem getO_eq_none_of_le (l : List (Option Nat)) (i : Nat) (h : l.length ≤ i) :
    getO l i = none := List.getD_eq_default l none h

theorem lt_length_of_getO_some (l : List (Option Nat)) (i : Nat) (v : Nat)
    (h : getO l i = some v) : i < l.length := by
  by_contra hlt
  rw [getO_eq_none_of_le l i (Nat.le_of_not_lt hlt)] at h
  exact Option.noConfusion h

theorem getD_eq_getElem_of_lt {α : Type} (l : List α) (i : Nat) (d : α)
    (h : i < l.length) : l.getD i d = l[i] := List.getD_eq_getElem l d h

/-! Facts about permutation rows and the ranking construction. -/

theorem IsPerm.getN_lt {n : Nat} {row : List Nat} (hp : IsPerm n row)
    {k : Nat} (hk : k < n) : getN row k < n := by
  obtain ⟨hlen, _, hmem⟩ := hp
  have hk' : k < row.length := hlen ▸ hk
  rw [getN, getD_eq_getElem_of_lt _ _ _ hk']
  exact hmem _ (row.getElem_mem hk')

theorem IsPerm.mem_of_lt {n : Nat} {row : List Nat} (hp : IsPerm n row)
    {x : Nat} (hx : x < n) : x ∈ row := by
  obtain ⟨hlen, hnd, hmem⟩ := hp
  have hsub : row.toFinset ⊆ Finset.range n := by
    intro y hy
    exact Finset.mem_range.2 (hmem y (List.mem_toFinset.1 hy))
  have hcard : (Finset.range n).card ≤ row.toFinset.card := by
    rw [Finset.card_range, List.toFinset_card_of_nodup hnd, hlen]
  have := Finset.eq_of_subset_of_card_le hsub hcard
  have hxmem : x ∈ row.toFinset := this ▸ Finset.mem_range.2 hx
  exact List.mem_toFinset.1 hxmem

theorem IsPerm.getN_inj {n : Nat} {row : List Nat} (hp : IsPerm n row)
    {k1 k2 : Nat} (h1 : k1 < n) (h2 : k2 < n) (he : getN row k1 = getN row k2) :
    k1 = k2 := by
  obtain ⟨hlen, hnd, _⟩ := hp
  have h1' : k1 < row.length := hlen ▸ h1
  have h2' : k2 < row.length := hlen ▸ h2
  rw [getN, getN, getD_eq_getElem_of_lt _ _ _ h1', getD_eq_getElem_of_lt _ _ _ h2'] at he
  exact (List.Nodup.getElem_inj_iff hnd).1 he

theorem setRanks_length (row : List Nat) : ∀ (acc : List Nat) (r : Nat),
    (setRanks acc row r).length = acc.length := by
  induction row with
  | nil => intro acc r; rfl
  | cons x rest ih =>
      intro acc r
      rw [setRanks, ih]
      exact List.length_set ..

theorem setRanks_getN_of_not_mem (row : List Nat) : ∀ (acc : List Nat) (r j : Nat),
    j ∉ row → getN (setRanks acc row r) j = getN acc j := by
  induction row with
  | nil => intro acc r j _; rfl
  | cons x rest ih =>
      intro acc r j hj
      rw [setRanks, ih _ _ _ (fun hm => hj (List.mem_cons_of_mem x hm)),
        getN_set_ne _ _ _ _ (fun he => hj (by rw [← he]; exact List.mem_cons_self x rest))]

theorem setRanks_getN_elem (row : List Nat) : ∀ (acc : List Nat) (r k : Nat),
    row.Nodup → (hk : k < row.length) → row[k] < acc.length →
    getN (setRanks acc row r) row[k] = r + k := by
  induction row with
  | nil => intro acc r k _ hk; exact absurd hk (Nat.not_lt_zero k)
  | cons x rest ih =>
      intro acc r k hnd hk hacc
      match k with
      | 0 =>
          simp only [List.getElem_cons_zero] at hacc ⊢
          rw [setRanks, setRanks_getN_of_not_mem rest _ _ _ (List.Nodup.not_mem hnd),
            getN_set_self _ _ _ hacc]
          omega
      | k' + 1 =>
          simp only [List.getElem_cons_succ] at hacc ⊢
          rw [setRanks, ih _ _ _ (List.Nodup.of_cons hnd)
            (Nat.lt_of_succ_lt_succ hk) (by rw [List.length_set]; exact hacc)]
          omega

theorem buildRankingRow_length (n : Nat) (row : List Nat) :
    (buildRankingRow n row).length = n := by
  rw [buildRankingRow, setRanks_length, List.length_replicate]

theorem rankRow_getN {n : Nat} {row : List Nat} (hp : IsPerm n row)
    {k : Nat} (hk : k < n) : getN (buildRankingRow n row) (getN row k) = k := by
  obtain ⟨hlen, hnd, hmem⟩ := hp
  have hk' : k < row.length := hlen ▸ hk
  have hx : row[k] < n := hmem _ (row.getElem_mem hk')
  have hrk : getN row k = row[k] := getD_eq_getElem_of_lt _ _ _ hk'
  rw [hrk, buildRankingRow,
    setRanks_getN_elem row (List.replicate n 0) 0 k hnd hk'
      (by rw [List.length_replicate]; exact hx)]
  omega

theorem rankRow_lt {n : Nat} {row : List Nat} (hp : IsPerm n row)
    {x : Nat} (hx : x < n) : getN (buildRankingRow n row) x < n := by
  obtain ⟨k, hk, hxk⟩ := List.getElem_of_mem (hp.mem_of_lt hx)
  have hkn : k < n := hp.1 ▸ hk
  have : getN row k = x := by rw [getN, getD_eq_getElem_of_lt _ _ _ hk, hxk]
  rw [← this, rankRow_getN hp hkn]
  exact hkn

theorem getN_rankRow {n : Nat} {row : List Nat} (hp : IsPerm n row)
    {x : Nat} (hx : x < n) : getN row (getN (buildRankingRow n row) x) = x := by
  obtain ⟨k, hk, hxk⟩ := List.getElem_of_mem (hp.mem_of_lt hx)
  have hkn : k < n := hp.1 ▸ hk
  have hgx : getN row k = x := by rw [getN, getD_eq_getElem_of_lt _ _ _ hk, hxk]
  rw [← hgx, rankRow_getN hp hkn, hgx]

theorem rankRow_inj {n : Nat} {row : List Nat} (hp : IsPerm n row)
    {x y : Nat} (hx : x < n) (hy : y < n)
    (he : getN (buildRankingRow n row) x = getN (buildRankingRow n row) y) :
    x = y := by
  have := getN_rankRow hp hx
  rw [he, getN_rankRow hp hy] at this
  exact this.symm

theorem rankOf_getElem {row : List Nat} (hnd : row.Nodup) {k : Nat}
    (hk : k < row.length) : rankOf row row[k] = k := by
  induction row generalizing k with
  | nil => exact absurd hk (Nat.not_lt_zero k)
  | cons x rest ih =>
      match k with
      | 0 =>
          rw [rankOf, List.findIdx_cons]
          simp
      | k' + 1 =>
          have hk2 : k' < rest.length := Nat.lt_of_succ_lt_succ hk
          have hx : x ≠ rest[k'] := by
            intro he
            exact (List.Nodup.not_mem hnd) (he ▸ rest.getElem_mem hk2)
          rw [List.getElem_cons_succ, rankOf, List.findIdx_cons]
          rw [beq_false_of_ne hx]
          simp only [cond_false]
          rw [← rankOf, ih (List.Nodup.of_cons hnd) hk2]

theorem rankRow_eq_rankOf {n : Nat} {row : List Nat} (hp : IsPerm n row)
    {x : Nat} (hx : x < n) : getN (buildRankingRow n row) x = rankOf row x := by
  obtain ⟨k, hk, hxk⟩ := List.getElem_of_mem (hp.mem_of_lt hx)
  have hkn : k < n := hp.1 ▸ hk
  have hgx : getN row k = x := by
    rw [getN, getD_eq_getElem_of_lt _ _ _ hk, hxk]
  calc getN (buildRankingRow n row) x
      = getN (buildRankingRow n row) (getN row k) := by rw [hgx]
    _ = k := rankRow_getN hp hkn
    _ = rankOf row row[k] := (rankOf_getElem hp.2.1 hk).symm
    _ = rankOf row x := by rw [hxk]

theorem getRow_buildRanking {n : Nat} {prefs : List (List Nat)}
    (hlen : prefs.length = n) {i : Nat} (hi : i < n) :
    getRow (buildRanking n prefs) i = buildRankingRow n (getRow prefs i) := by
  have hi' : i < prefs.length := hlen ▸ hi
  rw [getRow, getRow, buildRanking,
    getD_eq_getElem_of_lt _ _ _ (by rw [List.length_map]; exact hi'),
    getD_eq_getElem_of_lt _ _ _ hi', List.getElem_map]

/-! Case analysis of one `propose` iteration. -/

theorem propose_eq_accept (hospital_prefs student_ranking : List (List Nat))
    (st : GSState) (h : Nat)
    (hnone : getO st.student_match
      (getN (getRow hospital_prefs h) (getN st.next_proposal h)) = none) :
    propose hospital_prefs student_ranking st h =
      { hospital_match := st.hospital_match.set h
          (some (getN (getRow hospital_prefs h) (getN st.next_proposal h)))
        student_match := st.student_match.set
          (getN (getRow hospital_prefs h) (getN st.next_proposal h)) (some h)
        next_proposal := st.next_proposal.set h (getN st.next_proposal h + 1)
        proposal_count := st.proposal_count + 1 } := by
  unfold propose
  simp only [hnone]

theorem propose_eq_upgrade (hospital_prefs student_ranking : List (List Nat))
    (st : GSState) (h current : Nat)
    (hcur : getO st.student_match
      (getN (getRow hospital_prefs h) (getN st.next_proposal h)) = some current)
    (hpref : getN (getRow student_ranking
        (getN (getRow hospital_prefs h) (getN st.next_proposal h))) h
      < getN (getRow student_ranking
        (getN (getRow hospital_prefs h) (getN st.next_proposal h))) current) :
    propose hospital_prefs student_ranking st h =
      { hospital_match := (st.hospital_match.set current none).set h
          (some (getN (getRow hospital_prefs h) (getN st.next_proposal h)))
        student_match := st.student_match.set
          (getN (getRow hospital_prefs h) (getN st.next_proposal h)) (some h)
        next_proposal := st.next_proposal.set h (getN st.next_proposal h + 1)
        proposal_count := st.proposal_count + 1 } := by
  unfold propose
  simp only [hcur, if_pos hpref]

theorem propose_eq_reject (hospital_prefs student_ranking : List (List Nat))
    (st : GSState) (h current : Nat)
    (hcur : getO st.student_match
      (getN (getRow hospital_prefs h) (getN st.next_proposal h)) = some current)
    (hpref : ¬ getN (getRow student_ranking
        (getN (getRow hospital_prefs h) (getN st.next_proposal h))) h
      < getN (getRow student_ranking
        (getN (getRow hospital_prefs h) (getN st.next_proposal h))) current) :
    propose hospital_prefs student_ranking st h =
      { hospital_match := st.hospital_match
        student_match := st.student_match
        next_proposal := st.next_proposal.set h (getN st.next_proposal h + 1)
        proposal_count := st.proposal_count + 1 } := by
  unfold propose
  simp only [hcur, if_neg hpref]

theorem findFree_some {n : Nat} {st : GSState} {h : Nat}
    (hf : findFree n st = some h) :
    h < n ∧ getO st.hospital_match h = none ∧ getN st.next_proposal h < n := by
  unfold findFree at hf
  have hmem := List.mem_of_find?_eq_some hf
  have hdec := List.find?_some hf
  simp only [decide_eq_true_eq] at hdec
  exact ⟨List.mem_range.1 hmem, hdec.1, hdec.2⟩

theorem findFree_none {n : Nat} {st : GSState} (hf : findFree n st = none) :
    ∀ h, h < n →
      ¬(getO st.hospital_match h = none ∧ getN st.next_proposal h < n) := by
  unfold findFree at hf
  intro h hh hc
  exact (List.find?_eq_none.1 hf h (List.mem_range.2 hh)) (decide_eq_true hc)

theorem GSInv_init (n : Nat) (hospital_prefs student_prefs : List (List Nat)) :
    GSInv n hospital_prefs student_prefs (initState n) := by
  refine ⟨List.length_replicate .., List.length_replicate .., List.length_replicate ..,
    ?_, ?_, ?_, ?_, ?_, ?_, ?_, ?_⟩
  · intro h hh
    show getN (List.replicate n 0) h ≤ n
    rw [getN_replicate_zero n h hh]; exact Nat.zero_le n
  · intro h s hh hs
    rw [show (initState n).hospital_match = List.replicate n none from rfl,
      getO_replicate n h hh] at hs
    exact absurd hs (by simp)
  · intro s h2 hs hh
    rw [show (initState n).student_match = List.replicate n none from rfl,
      getO_replicate n s hs] at hh
    exact absurd hh (by simp)
  · intro h s hh hs
    show getO (List.replicate n none) h = some s ↔ getO (List.replicate n none) s = some h
    rw [getO_replicate n h hh, getO_replicate n s hs]
    exact iff_of_false (by simp) (by simp)
  · intro h s hh hs
    rw [show (initState n).hospital_match = List.replicate n none from rfl,
      getO_replicate n h hh] at hs
    exact absurd hs (by simp)
  · intro h k hh hk
    rw [show (initState n).next_proposal = List.replicate n 0 from rfl,
      getN_replicate_zero n h hh] at hk
    exact absurd hk (Nat.not_lt_zero k)
  · intro h k hh hk
    rw [show (initState n).next_proposal = List.replicate n 0 from rfl,
      getN_replicate_zero n h hh] at hk
    exact absurd hk (Nat.not_lt_zero k)
  · show 0 + (Finset.range n).sum (fun h => n - getN (List.replicate n 0) h) = n * n
    have hcongr : ∀ h ∈ Finset.range n, n - getN (List.replicate n 0) h = n := by
      intro h hh
      rw [getN_replicate_zero n h (Finset.mem_range.1 hh), Nat.sub_zero]
    rw [Finset.sum_congr rfl hcongr, Finset.sum_const, Finset.card_range,
      smul_eq_mul, Nat.mul_comm]
    exact Nat.zero_add _

theorem sum_measure_set {n : Nat} (np : List Nat) (f : Nat) (hf : f < n)
    (hlen : np.length = n) (hlt : getN np f < n) :
    (Finset.range n).sum (fun h => n - getN (np.set f (getN np f + 1)) h) + 1 =
    (Finset.range n).sum (fun h => n - getN np h) := by
  have hmem : f ∈ Finset.range n := Finset.mem_range.2 hf
  rw [← Finset.add_sum_erase _ _ hmem,
    ← Finset.add_sum_erase _ (fun h => n - getN np h) hmem]
  have h1 : getN (np.set f (getN np f + 1)) f = getN np f + 1 :=
    getN_set_self np f _ (hlen ▸ hf)
  have h2 : ∀ x ∈ (Finset.range n).erase f,
      n - getN (np.set f (getN np f + 1)) x = n - getN np x := by
    intro x hx
    rw [getN_set_ne np f x _ (Ne.symm (Finset.mem_erase.1 hx).1)]
  rw [h1, Finset.sum_congr rfl h2]
  omega

theorem GSInv_accept {n : Nat} {hospital_prefs student_prefs : List (List Nat)}
    {st : GSState} {f : Nat}
    (HP : PermTable n hospital_prefs)
    (inv : GSInv n hospital_prefs student_prefs st)
    (hfn : f < n) (hmf : getO st.hospital_match f = none)
    (hnpf : getN st.next_proposal f < n)
    (hnone : getO st.student_match
      (getN (getRow hospital_prefs f) (getN st.next_proposal f)) = none) :
    GSInv n hospital_prefs student_prefs
      (propose hospital_prefs (buildRanking n student_prefs) st f) := by
  have hrowf : IsPerm n (getRow hospital_prefs f) := HP.2 f hfn
  have lhm := inv.len_hm
  have lsm := inv.len_sm
  have lnp := inv.len_np
  rw [propose_eq_accept hospital_prefs (buildRanking n student_prefs) st f hnone]
  set stu := getN (getRow hospital_prefs f) (getN st.next_proposal f) with hstu
  have hstu_lt : stu < n := hrowf.getN_lt hnpf
  refine ⟨?_, ?_, ?_, ?_, ?_, ?_, ?_, ?_, ?_, ?_, ?_⟩ <;> dsimp only
  · rw [List.length_set]; exact lhm
  · rw [List.length_set]; exact lsm
  · rw [List.length_set]; exact lnp
  · intro h hh
    by_cases hef : f = h
    · subst hef; rw [getN_set_self _ _ _ (lnp ▸ hfn)]; omega
    · rw [getN_set_ne _ _ _ _ hef]; exact inv.np_le h hh
  · intro h s hh hs
    by_cases hef : f = h
    · subst hef
      rw [getO_set_self _ _ _ (lhm ▸ hfn)] at hs
      rw [← Option.some.inj hs]
      exact hstu_lt
    · rw [getO_set_ne _ _ _ _ hef] at hs
      exact inv.hm_lt h s hh hs
  · intro s h2 hs hh
    by_cases hes : stu = s
    · subst hes
      rw [getO_set_self _ _ _ (lsm ▸ hstu_lt)] at hh
      rw [← Option.some.inj hh]
      exact hfn
    · rw [getO_set_ne _ _ _ _ hes] at hh
      exact inv.sm_lt s h2 hs hh
  · intro h s hh hs
    by_cases hef : f = h
    · subst hef
      rw [getO_set_self _ _ _ (lhm ▸ hfn)]
      by_cases hes : stu = s
      · subst hes
        rw [getO_set_self _ _ _ (lsm ▸ hstu_lt)]
        exact iff_of_true rfl rfl
      · rw [getO_set_ne _ _ _ _ hes]
        constructor
        · intro hc; exact absurd (Option.some.inj hc) hes
        · intro hc
          have hold := (inv.agree f s hfn hs).2 hc
          rw [hmf] at hold
          exact absurd hold (by simp)
    · rw [getO_set_ne _ _ _ _ hef]
      by_cases hes : stu = s
      · subst hes
        rw [getO_set_self _ _ _ (lsm ▸ hstu_lt)]
        constructor
        · intro hc
          have hold := (inv.agree h stu hh hstu_lt).1 hc
          rw [hnone] at hold
          exact absurd hold (by simp)
        · intro hc; exact absurd (Option.some.inj hc) hef
      · rw [getO_set_ne _ _ _ _ hes]
        exact inv.agree h s hh hs
  · intro h s hh hs
    by_cases hef : f = h
    · subst hef
      rw [getO_set_self _ _ _ (lhm ▸ hfn)] at hs
      rw [getN_set_self _ _ _ (lnp ▸ hfn)]
      refine ⟨Nat.succ_pos _, ?_⟩
      rw [Nat.add_sub_cancel, ← hstu]
      exact Option.some.inj hs
    · rw [getO_set_ne _ _ _ _ hef] at hs
      rw [getN_set_ne _ _ _ _ hef]
      exact inv.cursor h s hh hs
  · intro h k hh hk
    by_cases hef : f = h
    · subst hef
      rw [getN_set_self _ _ _ (lnp ▸ hfn)] at hk
      by_cases hkf : k = getN st.next_proposal f
      · subst hkf
        rw [← hstu]
        exact ⟨f, by rw [getO_set_self _ _ _ (lsm ▸ hstu_lt)], Nat.le_refl _⟩
      · have hklt : k < getN st.next_proposal f := by omega
        obtain ⟨h2, hsm2, hrk⟩ := inv.proposed f k hfn hklt
        have hne : getN (getRow hospital_prefs f) k ≠ stu := by
          intro he
          rw [he, hnone] at hsm2
          exact absurd hsm2 (by simp)
        refine ⟨h2, ?_, hrk⟩
        rw [getO_set_ne _ _ _ _ (fun he => hne he.symm)]
        exact hsm2
    · rw [getN_set_ne _ _ _ _ hef] at hk
      obtain ⟨h2, hsm2, hrk⟩ := inv.proposed h k hh hk
      have hne : getN (getRow hospital_prefs h) k ≠ stu := by
        intro he
        rw [he, hnone] at hsm2
        exact absurd hsm2 (by simp)
      refine ⟨h2, ?_, hrk⟩
      rw [getO_set_ne _ _ _ _ (fun he => hne he.symm)]
      exact hsm2
  · intro h k hh hk hcond
    by_cases hef : f = h
    · subst hef
      rw [getN_set_self _ _ _ (lnp ▸ hfn)] at hk
      rw [getO_set_self _ _ _ (lhm ▸ hfn)] at hcond
      by_cases hkf : k = getN st.next_proposal f
      · exfalso
        apply hcond
        rw [hkf, ← hstu]
      · have hklt : k < getN st.next_proposal f := by omega
        refine inv.rejected f k hfn hklt ?_
        rw [hmf]
        simp
    · rw [getN_set_ne _ _ _ _ hef] at hk
      rw [getO_set_ne _ _ _ _ hef] at hcond
      exact inv.rejected h k hh hk hcond
  · have hsum := sum_measure_set st.next_proposal f hfn lnp hnpf
    have hcnt := inv.count
    omega

theorem table_rank_eq {n : Nat} {prefs : List (List Nat)} (hp : PermTable n prefs)
    {i x : Nat} (hi : i < n) (hx : x < n) :
    getN (getRow (buildRanking n prefs) i) x = rankOf (getRow prefs i) x := by
  rw [getRow_buildRanking hp.1 hi, rankRow_eq_rankOf (hp.2 i hi) hx]

theorem table_rank_ne {n : Nat} {prefs : List (List Nat)} (hp : PermTable n prefs)
    {i a b : Nat} (hi : i < n) (ha : a < n) (hb : b < n) (hab : a ≠ b) :
    getN (getRow (buildRanking n prefs) i) a ≠ getN (getRow (buildRanking n prefs) i) b := by
  rw [getRow_buildRanking hp.1 hi]
  intro he
  exact hab (rankRow_inj (hp.2 i hi) ha hb he)

/-- If every entry of hospital `w`'s preference row below position `KB`
except position `kw` is ruled out for `w` in every stable matching, then in
any stable matching that does not give `w` the student at position `kw`,
`w` is matched strictly below position `kw`. -/
theorem stable_partner_rank {n : Nat} {hospital_prefs student_prefs : List (List Nat)}
    (HP : PermTable n hospital_prefs) {w kw KB : Nat} (hw : w < n)
    (hKB : KB ≤ n) (hkw : kw < KB)
    (hrej : ∀ k, k < KB → k ≠ kw →
      ∀ M, IsStable n hospital_prefs student_prefs M →
        M w ≠ getN (getRow hospital_prefs w) k)
    {M : Nat → Nat} (hM : IsStable n hospital_prefs student_prefs M)
    (hMw : M w ≠ getN (getRow hospital_prefs w) kw) :
    rankOf (getRow hospital_prefs w) (getN (getRow hospital_prefs w) kw)
      < rankOf (getRow hospital_prefs w) (M w) := by
  have hrow : IsPerm n (getRow hospital_prefs w) := HP.2 w hw
  have hMw_lt : M w < n := hM.1.1 w hw
  obtain ⟨kM, hkM, hMk⟩ := List.getElem_of_mem (hrow.mem_of_lt hMw_lt)
  have hgM : getN (getRow hospital_prefs w) kM = M w := by
    rw [getN, getD_eq_getElem_of_lt _ _ _ hkM, hMk]
  have hkw' : kw < (getRow hospital_prefs w).length :=
    hrow.1 ▸ (Nat.lt_of_lt_of_le hkw hKB)
  have hr1 : rankOf (getRow hospital_prefs w)
      (getN (getRow hospital_prefs w) kw) = kw := by
    have hkwe : getN (getRow hospital_prefs w) kw = (getRow hospital_prefs w)[kw] :=
      getD_eq_getElem_of_lt _ _ _ hkw'
    rw [hkwe, rankOf_getElem hrow.2.1 hkw']
  have hr2 : rankOf (getRow hospital_prefs w) (M w) = kM := by
    rw [← hMk, rankOf_getElem hrow.2.1 hkM]
  rw [hr1, hr2]
  rcases Nat.lt_trichotomy kM kw with hlt | heq | hgt
  · exact absurd hgM.symm
      (hrej kM (Nat.lt_trans hlt hkw) (Nat.ne_of_lt hlt) M hM)
  · exact absurd ((heq ▸ hgM).symm) hMw
  · exact hgt

theorem GSInv_upgrade {n : Nat} {hospital_prefs student_prefs : List (List Nat)}
    {st : GSState} {f current : Nat}
    (HP : PermTable n hospital_prefs) (SP : PermTable n student_prefs)
    (inv : GSInv n hospital_prefs student_prefs st)
    (hfn : f < n) (hmf : getO st.hospital_match f = none)
    (hnpf : getN st.next_proposal f < n)
    (hcur : getO st.student_match
      (getN (getRow hospital_prefs f) (getN st.next_proposal f)) = some current)
    (hpref : getN (getRow (buildRanking n student_prefs)
        (getN (getRow hospital_prefs f) (getN st.next_proposal f))) f
      < getN (getRow (buildRanking n student_prefs)
        (getN (getRow hospital_prefs f) (getN st.next_proposal f))) current) :
    GSInv n hospital_prefs student_prefs
      (propose hospital_prefs (buildRanking n student_prefs) st f) := by
  have hrowf : IsPerm n (getRow hospital_prefs f) := HP.2 f hfn
  have lhm := inv.len_hm
  have lsm := inv.len_sm
  have lnp := inv.len_np
  rw [propose_eq_upgrade hospital_prefs (buildRanking n student_prefs) st f current
    hcur hpref]
  set stu := getN (getRow hospital_prefs f) (getN st.next_proposal f) with hstu
  have hstu_lt : stu < n := hrowf.getN_lt hnpf
  have hcur_lt : current < n := inv.sm_lt stu current hstu_lt hcur
  have hmc : getO st.hospital_match current = some stu :=
    (inv.agree current stu hcur_lt hstu_lt).2 hcur
  have hcf : current ≠ f := by
    intro he; rw [he, hmf] at hmc; exact Option.noConfusion hmc
  have lset : (st.hospital_match.set current none).length = n := by
    rw [List.length_set]; exact lhm
  have hnotstable : ∀ M, IsStable n hospital_prefs student_prefs M →
      M current ≠ stu := by
    intro M hM hMc
    have hMf_ne : M f ≠ stu := by
      intro hMf
      exact hcf (hM.1.2 current hcur_lt f hfn (hMc.trans hMf.symm))
    have hblock : Blocks n hospital_prefs student_prefs M f stu := by
      refine ⟨hMf_ne, ?_, ?_⟩
      · have hrej : ∀ k, k < getN st.next_proposal f + 1 →
            k ≠ getN st.next_proposal f →
            ∀ M2, IsStable n hospital_prefs student_prefs M2 →
              M2 f ≠ getN (getRow hospital_prefs f) k := by
          intro k hk hne M2 hM2
          have hklt : k < getN st.next_proposal f := by omega
          exact inv.rejected f k hfn hklt (by rw [hmf]; simp) M2 hM2
        have hMw : M f ≠ getN (getRow hospital_prefs f) (getN st.next_proposal f) := by
          rw [← hstu]; exact hMf_ne
        have hr := stable_partner_rank HP hfn (Nat.succ_le_of_lt hnpf)
          (Nat.lt_succ_self (getN st.next_proposal f)) hrej hM hMw
        rw [← hstu] at hr
        exact hr
      · intro h2 hh2 hMh2
        have he2 : h2 = current := hM.1.2 h2 hh2 current hcur_lt (hMh2.trans hMc.symm)
        subst he2
        rw [← table_rank_eq SP hstu_lt hfn, ← table_rank_eq SP hstu_lt hh2]
        exact hpref
    exact hM.2 f hfn stu hstu_lt hblock
  refine ⟨?_, ?_, ?_, ?_, ?_, ?_, ?_, ?_, ?_, ?_, ?_⟩ <;> dsimp only
  · rw [List.length_set, List.length_set]; exact lhm
  · rw [List.length_set]; exact lsm
  · rw [List.length_set]; exact lnp
  · intro h hh
    by_cases hef : f = h
    · subst hef; rw [getN_set_self _ _ _ (lnp ▸ hfn)]; omega
    · rw [getN_set_ne _ _ _ _ hef]; exact inv.np_le h hh
  · intro h s hh hs
    by_cases hef : f = h
    · subst hef
      rw [getO_set_self _ _ _ (lset ▸ hfn)] at hs
      rw [← Option.some.inj hs]
      exact hstu_lt
    · rw [getO_set_ne _ _ _ _ hef] at hs
      by_cases hch : current = h
      · subst hch
        rw [getO_set_self _ _ _ (lhm ▸ hcur_lt)] at hs
        exact absurd hs (by simp)
      · rw [getO_set_ne _ _ _ _ hch] at hs
        exact inv.hm_lt h s hh hs
  · intro s h2 hs hh
    by_cases hes : stu = s
    · subst hes
      rw [getO_set_self _ _ _ (lsm ▸ hstu_lt)] at hh
      rw [← Option.some.inj hh]
      exact hfn
    · rw [getO_set_ne _ _ _ _ hes] at hh
      exact inv.sm_lt s h2 hs hh
  · intro h s hh hs
    by_cases hef : f = h
    · subst hef
      rw [getO_set_self _ _ _ (lset ▸ hfn)]
      by_cases hes : stu = s
      · subst hes
        rw [getO_set_self _ _ _ (lsm ▸ hstu_lt)]
        exact iff_of_true rfl rfl
      · rw [getO_set_ne _ _ _ _ hes]
        refine iff_of_false (fun hc => hes (Option.some.inj hc)) (fun hc => ?_)
        have hold := (inv.agree f s hfn hs).2 hc
        rw [hmf] at hold
        exact Option.noConfusion hold
    · rw [getO_set_ne _ _ _ _ hef]
      by_cases hch : current = h
      · subst hch
        rw [getO_set_self _ _ _ (lhm ▸ hcur_lt)]
        by_cases hes : stu = s
        · subst hes
          rw [getO_set_self _ _ _ (lsm ▸ hstu_lt)]
          exact iff_of_false (fun hc => Option.noConfusion hc)
            (fun hc => hcf (Option.some.inj hc).symm)
        · rw [getO_set_ne _ _ _ _ hes]
          refine iff_of_false (fun hc => Option.noConfusion hc) (fun hc => ?_)
          have hold := (inv.agree current s hcur_lt hs).2 hc
          rw [hmc] at hold
          exact hes (Option.some.inj hold)
      · rw [getO_set_ne _ _ _ _ hch]
        by_cases hes : stu = s
        · subst hes
          rw [getO_set_self _ _ _ (lsm ▸ hstu_lt)]
          refine iff_of_false (fun hc => ?_) (fun hc => hef (Option.some.inj hc))
          have hold := (inv.agree h stu hh hstu_lt).1 hc
          rw [hcur] at hold
          exact hch (Option.some.inj hold)
        · rw [getO_set_ne _ _ _ _ hes]
          exact inv.agree h s hh hs
  · intro h s hh hs
    by_cases hef : f = h
    · subst hef
      rw [getO_set_self _ _ _ (lset ▸ hfn)] at hs
      rw [getN_set_self _ _ _ (lnp ▸ hfn)]
      refine ⟨Nat.succ_pos _, ?_⟩
      rw [Nat.add_sub_cancel, ← hstu]
      exact Option.some.inj hs
    · rw [getO_set_ne _ _ _ _ hef] at hs
      rw [getN_set_ne _ _ _ _ hef]
      by_cases hch : current = h
      · subst hch
        rw [getO_set_self _ _ _ (lhm ▸ hcur_lt)] at hs
        exact absurd hs (by simp)
      · rw [getO_set_ne _ _ _ _ hch] at hs
        exact inv.cursor h s hh hs
  · intro h k hh hk
    by_cases hts : getN (getRow hospital_prefs h) k = stu
    · rw [hts]
      refine ⟨f, by rw [getO_set_self _ _ _ (lsm ▸ hstu_lt)], ?_⟩
      by_cases hef : f = h
      · subst hef; exact Nat.le_refl _
      · rw [getN_set_ne _ _ _ _ hef] at hk
        obtain ⟨h2, hsm2, hrk⟩ := inv.proposed h k hh hk
        rw [hts, hcur] at hsm2
        have h2c : h2 = current := (Option.some.inj hsm2).symm
        subst h2c
        rw [hts] at hrk
        exact Nat.le_trans (Nat.le_of_lt hpref) hrk
    · have hset : getO (st.student_match.set stu (some f))
          (getN (getRow hospital_prefs h) k)
          = getO st.student_match (getN (getRow hospital_prefs h) k) :=
        getO_set_ne _ _ _ _ (fun he => hts he.symm)
      rw [hset]
      by_cases hef : f = h
      · subst hef
        rw [getN_set_self _ _ _ (lnp ▸ hfn)] at hk
        have hkne : k ≠ getN st.next_proposal f := by
          intro he; rw [he, ← hstu] at hts; exact hts rfl
        have hklt : k < getN st.next_proposal f := by omega
        exact inv.proposed f k hfn hklt
      · rw [getN_set_ne _ _ _ _ hef] at hk
        exact inv.proposed h k hh hk
  · intro h k hh hk hcond
    by_cases hef : f = h
    · subst hef
      rw [getN_set_self _ _ _ (lnp ▸ hfn)] at hk
      rw [getO_set_self _ _ _ (lset ▸ hfn)] at hcond
      by_cases hkf : k = getN st.next_proposal f
      · exfalso; apply hcond; rw [hkf, ← hstu]
      · have hklt : k < getN st.next_proposal f := by omega
        exact inv.rejected f k hfn hklt (by rw [hmf]; simp)
    · rw [getN_set_ne _ _ _ _ hef] at hk
      by_cases hch : current = h
      · subst hch
        by_cases hts : getN (getRow hospital_prefs current) k = stu
        · rw [hts]
          exact hnotstable
        · refine inv.rejected current k hcur_lt hk ?_
          rw [hmc]
          intro hc
          exact hts (Option.some.inj hc).symm
      · rw [getO_set_ne _ _ _ _ hef, getO_set_ne _ _ _ _ hch] at hcond
        exact inv.rejected h k hh hk hcond
  · have hsum := sum_measure_set st.next_proposal f hfn lnp hnpf
    have hcnt := inv.count
    omega

theorem GSInv_reject {n : Nat} {hospital_prefs student_prefs : List (List Nat)}
    {st : GSState} {f current : Nat}
    (HP : PermTable n hospital_prefs) (SP : PermTable n student_prefs)
    (inv : GSInv n hospital_prefs student_prefs st)
    (hfn : f < n) (hmf : getO st.hospital_match f = none)
    (hnpf : getN st.next_proposal f < n)
    (hcur : getO st.student_match
      (getN (getRow hospital_prefs f) (getN st.next_proposal f)) = some current)
    (hpref : ¬ getN (getRow (buildRanking n student_prefs)
        (getN (getRow hospital_prefs f) (getN st.next_proposal f))) f
      < getN (getRow (buildRanking n student_prefs)
        (getN (getRow hospital_prefs f) (getN st.next_proposal f))) current) :
    GSInv n hospital_prefs student_prefs
      (propose hospital_prefs (buildRanking n student_prefs) st f) := by
  have hrowf : IsPerm n (getRow hospital_prefs f) := HP.2 f hfn
  have lhm := inv.len_hm
  have lsm := inv.len_sm
  have lnp := inv.len_np
  rw [propose_eq_reject hospital_prefs (buildRanking n student_prefs) st f current
    hcur hpref]
  set stu := getN (getRow hospital_prefs f) (getN st.next_proposal f) with hstu
  have hstu_lt : stu < n := hrowf.getN_lt hnpf
  have hcur_lt : current < n := inv.sm_lt stu current hstu_lt hcur
  have hmc : getO st.hospital_match current = some stu :=
    (inv.agree current stu hcur_lt hstu_lt).2 hcur
  have hcf : current ≠ f := by
    intro he; rw [he, hmf] at hmc; exact Option.noConfusion hmc
  have hcurpos : 0 < getN st.next_proposal current ∧
      getN (getRow hospital_prefs current) (getN st.next_proposal current - 1) = stu :=
    inv.cursor current stu hcur_lt hmc
  -- the receiver strictly prefers its current hospital to the rejected one
  have hstrict : getN (getRow (buildRanking n student_prefs) stu) current
      < getN (getRow (buildRanking n student_prefs) stu) f := by
    have hne := table_rank_ne SP hstu_lt hcur_lt hfn hcf
    omega
  -- the newly rejected pair: no stable matching pairs `f` with `stu`
  have hnotstable : ∀ M, IsStable n hospital_prefs student_prefs M →
      M f ≠ stu := by
    intro M hM hMf
    have hMc_ne : M current ≠ stu := by
      intro hMc
      exact hcf (hM.1.2 current hcur_lt f hfn (hMc.trans hMf.symm))
    have hrowc : IsPerm n (getRow hospital_prefs current) := HP.2 current hcur_lt
    have hblock : Blocks n hospital_prefs student_prefs M current stu := by
      refine ⟨hMc_ne, ?_, ?_⟩
      · have hrej : ∀ k, k < getN st.next_proposal current →
            k ≠ getN st.next_proposal current - 1 →
            ∀ M2, IsStable n hospital_prefs student_prefs M2 →
              M2 current ≠ getN (getRow hospital_prefs current) k := by
          intro k hk hne M2 hM2
          refine inv.rejected current k hcur_lt hk ?_ M2 hM2
          rw [hmc]
          intro hc
          have hke : getN (getRow hospital_prefs current) k = stu :=
            (Option.some.inj hc).symm
          rw [← hcurpos.2] at hke
          have hnple := inv.np_le current hcur_lt
          have hpos := hcurpos.1
          exact hne (hrowc.getN_inj (Nat.lt_of_lt_of_le hk hnple) (by omega) hke)
        have hMw : M current ≠ getN (getRow hospital_prefs current)
            (getN st.next_proposal current - 1) := by
          rw [hcurpos.2]; exact hMc_ne
        have hr := stable_partner_rank HP hcur_lt (inv.np_le current hcur_lt)
          (by omega) hrej hM hMw
        rw [hcurpos.2] at hr
        exact hr
      · intro h2 hh2 hMh2
        have he2 : h2 = f := hM.1.2 h2 hh2 f hfn (hMh2.trans hMf.symm)
        subst he2
        rw [← table_rank_eq SP hstu_lt hcur_lt, ← table_rank_eq SP hstu_lt hh2]
        exact hstrict
    exact hM.2 current hcur_lt stu hstu_lt hblock
  refine ⟨?_, ?_, ?_, ?_, ?_, ?_, ?_, ?_, ?_, ?_, ?_⟩ <;> dsimp only
  · exact lhm
  · exact lsm
  · rw [List.length_set]; exact lnp
  · intro h hh
    by_cases hef : f = h
    · subst hef; rw [getN_set_self _ _ _ (lnp ▸ hfn)]; omega
    · rw [getN_set_ne _ _ _ _ hef]; exact inv.np_le h hh
  · exact inv.hm_lt
  · exact inv.sm_lt
  · exact inv.agree
  · intro h s hh hs
    by_cases hef : f = h
    · subst hef
      rw [hmf] at hs
      exact absurd hs (by simp)
    · rw [getN_set_ne _ _ _ _ hef]
      exact inv.cursor h s hh hs
  · intro h k hh hk
    by_cases hef : f = h
    · subst hef
      rw [getN_set_self _ _ _ (lnp ▸ hfn)] at hk
      by_cases hkf : k = getN st.next_proposal f
      · subst hkf
        rw [← hstu]
        refine ⟨current, hcur, ?_⟩
        omega
      · have hklt : k < getN st.next_proposal f := by omega
        exact inv.proposed f k hfn hklt
    · rw [getN_set_ne _ _ _ _ hef] at hk
      exact inv.proposed h k hh hk
  · intro h k hh hk hcond
    by_cases hef : f = h
    · subst hef
      rw [getN_set_self _ _ _ (lnp ▸ hfn)] at hk
      by_cases hkf : k = getN st.next_proposal f
      · subst hkf
        rw [← hstu]
        exact hnotstable
      · have hklt : k < getN st.next_proposal f := by omega
        exact inv.rejected f k hfn hklt hcond
    · rw [getN_set_ne _ _ _ _ hef] at hk
      exact inv.rejected h k hh hk hcond
  · have hsum := sum_measure_set st.next_proposal f hfn lnp hnpf
    have hcnt := inv.count
    omega

theorem propose_next_proposal (hospital_prefs student_ranking : List (List Nat))
    (st : GSState) (f : Nat) :
    (propose hospital_prefs student_ranking st f).next_proposal
      = st.next_proposal.set f (getN st.next_proposal f + 1) := by
  unfold propose
  dsimp only
  cases hx : getO st.student_match (getN (getRow hospital_prefs f) (getN st.next_proposal f)) with
  | none => rfl
  | some current =>
      dsimp only
      split <;> rfl

theorem propose_proposal_count (hospital_prefs student_ranking : List (List Nat))
    (st : GSState) (f : Nat) :
    (propose hospital_prefs student_ranking st f).proposal_count
      = st.proposal_count + 1 := by
  unfold propose
  dsimp only
  cases hx : getO st.student_match (getN (getRow hospital_prefs f) (getN st.next_proposal f)) with
  | none => rfl
  | some current =>
      dsimp only
      split <;> rfl

theorem GSInv_step {n : Nat} {hospital_prefs student_prefs : List (List Nat)}
    {st st' : GSState}
    (HP : PermTable n hospital_prefs) (SP : PermTable n student_prefs)
    (inv : GSInv n hospital_prefs student_prefs st)
    (hstep : GSStep n hospital_prefs (buildRanking n student_prefs) st st') :
    GSInv n hospital_prefs student_prefs st' := by
  obtain ⟨f, hf, rfl⟩ := hstep
  obtain ⟨hfn, hmf, hnpf⟩ := findFree_some hf
  cases hsm : getO st.student_match
      (getN (getRow hospital_prefs f) (getN st.next_proposal f)) with
  | none => exact GSInv_accept HP inv hfn hmf hnpf hsm
  | some current =>
      by_cases hpref : getN (getRow (buildRanking n student_prefs)
          (getN (getRow hospital_prefs f) (getN st.next_proposal f))) f
        < getN (getRow (buildRanking n student_prefs)
          (getN (getRow hospital_prefs f) (getN st.next_proposal f))) current
      · exact GSInv_upgrade HP SP inv hfn hmf hnpf hsm hpref
      · exact GSInv_reject HP SP inv hfn hmf hnpf hsm hpref

theorem GSInv_reach {n : Nat} {hospital_prefs student_prefs : List (List Nat)}
    {st : GSState}
    (HP : PermTable n hospital_prefs) (SP : PermTable n student_prefs)
    (hreach : GSReach n hospital_prefs (buildRanking n student_prefs) st) :
    GSInv n hospital_prefs student_prefs st := by
  induction hreach with
  | init => exact GSInv_init n hospital_prefs student_prefs
  | step _ hstep ih => exact GSInv_step HP SP ih hstep

theorem GSInv_run {n : Nat} {hospital_prefs student_prefs : List (List Nat)}
    (HP : PermTable n hospital_prefs) (SP : PermTable n student_prefs) :
    ∀ (fuel : Nat) (st : GSState), GSInv n hospital_prefs student_prefs st →
      GSInv n hospital_prefs student_prefs
        (gsRun n hospital_prefs (buildRanking n student_prefs) fuel st) := by
  intro fuel
  induction fuel with
  | zero => intro st inv; exact inv
  | succ fuel ih =>
      intro st inv
      simp only [gsRun]
      cases hf : findFree n st with
      | none => exact inv
      | some f =>
          exact ih _ (GSInv_step HP SP inv ⟨f, hf, rfl⟩)

theorem gsRun_terminal {n : Nat} (hospital_prefs student_ranking : List (List Nat)) :
    ∀ (fuel : Nat) (st : GSState), st.next_proposal.length = n →
      (Finset.range n).sum (fun h => n - getN st.next_proposal h) ≤ fuel →
      findFree n (gsRun n hospital_prefs student_ranking fuel st) = none := by
  intro fuel
  induction fuel with
  | zero =>
      intro st hlen hsum
      cases hf : findFree n st with
      | none => exact hf
      | some f =>
          obtain ⟨hfn, _, hnpf⟩ := findFree_some hf
          have hz : n - getN st.next_proposal f = 0 :=
            Finset.sum_eq_zero_iff.1 (Nat.le_zero.1 hsum) f (Finset.mem_range.2 hfn)
          omega
  | succ fuel ih =>
      intro st hlen hsum
      simp only [gsRun]
      cases hf : findFree n st with
      | none => exact hf
      | some f =>
          obtain ⟨hfn, _, hnpf⟩ := findFree_some hf
          refine ih _ ?_ ?_
          · rw [propose_next_proposal, List.length_set]; exact hlen
          · have hdec := sum_measure_set st.next_proposal f hfn hlen hnpf
            rw [propose_next_proposal]
            omega

theorem gale_shapley_eq_final (n : Nat) (hospital_prefs student_prefs : List (List Nat)) :
    gale_shapley n hospital_prefs student_prefs
      = (gsFinal n hospital_prefs student_prefs).hospital_match := rfl

theorem gsFinal_inv {n : Nat} {hospital_prefs student_prefs : List (List Nat)}
    (HP : PermTable n hospital_prefs) (SP : PermTable n student_prefs) :
    GSInv n hospital_prefs student_prefs (gsFinal n hospital_prefs student_prefs) :=
  GSInv_run HP SP (n * n) (initState n) (GSInv_init n hospital_prefs student_prefs)

theorem initState_measure (n : Nat) :
    (Finset.range n).sum (fun h => n - getN (initState n).next_proposal h) = n * n := by
  have hcongr : ∀ h ∈ Finset.range n,
      n - getN (initState n).next_proposal h = n := by
    intro h hh
    show n - getN (List.replicate n 0) h = n
    rw [getN_replicate_zero n h (Finset.mem_range.1 hh), Nat.sub_zero]
  rw [Finset.sum_congr rfl hcongr, Finset.sum_const, Finset.card_range,
    smul_eq_mul, Nat.mul_comm]

theorem gsFinal_terminal (n : Nat) (hospital_prefs student_prefs : List (List Nat)) :
    findFree n (gsFinal n hospital_prefs student_prefs) = none := by
  refine gsRun_terminal hospital_prefs (buildRanking n student_prefs) (n * n)
    (initState n) (List.length_replicate ..) ?_
  rw [initState_measure]

theorem gsFinal_matched {n : Nat} {hospital_prefs student_prefs : List (List Nat)}
    (HP : PermTable n hospital_prefs) (SP : PermTable n student_prefs) :
    ∀ h, h < n → ∃ s, s < n ∧
      getO (gsFinal n hospital_prefs student_prefs).hospital_match h = some s := by
  have inv := gsFinal_inv HP SP
  have hterm := gsFinal_terminal n hospital_prefs student_prefs
  intro h0 hh0
  cases hm0 : getO (gsFinal n hospital_prefs student_prefs).hospital_match h0 with
  | some s => exact ⟨s, inv.hm_lt h0 s hh0 hm0, rfl⟩
  | none =>
      exfalso
      have hnp0 : getN (gsFinal n hospital_prefs student_prefs).next_proposal h0 = n := by
        have h1 := findFree_none hterm h0 hh0
        have h2 := inv.np_le h0 hh0
        rcases Nat.lt_or_ge
            (getN (gsFinal n hospital_prefs student_prefs).next_proposal h0) n with
          hlt | hge
        · exact absurd ⟨hm0, hlt⟩ h1
        · omega
      have hpart : ∀ s, s < n → ∃ h2, h2 < n ∧
          getO (gsFinal n hospital_prefs student_prefs).student_match s = some h2 := by
        intro s hs
        have hrow : IsPerm n (getRow hospital_prefs h0) := HP.2 h0 hh0
        obtain ⟨k, hk, hks⟩ := List.getElem_of_mem (hrow.mem_of_lt hs)
        have hkn : k < n := hrow.1 ▸ hk
        have hkcur : k < getN (gsFinal n hospital_prefs student_prefs).next_proposal h0 := by
          omega
        obtain ⟨h2, hsm2, _⟩ := inv.proposed h0 k hh0 hkcur
        have hgk : getN (getRow hospital_prefs h0) k = s := by
          rw [getN, getD_eq_getElem_of_lt _ _ _ hk, hks]
        rw [hgk] at hsm2
        exact ⟨h2, inv.sm_lt s h2 hs hsm2, hsm2⟩
      choose g hg using hpart
      have hinj : Function.Injective
          (fun s : Fin n => (⟨g s.1 s.2, (hg s.1 s.2).1⟩ : Fin n)) := by
        intro s1 s2 he
        have he' : g s1.1 s1.2 = g s2.1 s2.2 := congrArg Fin.val he
        have e1 := (hg s1.1 s1.2).2
        have e2 := (hg s2.1 s2.2).2
        rw [he'] at e1
        have a1 := (inv.agree (g s2.1 s2.2) s1.1 (hg s2.1 s2.2).1 s1.2).2 e1
        have a2 := (inv.agree (g s2.1 s2.2) s2.1 (hg s2.1 s2.2).1 s2.2).2 e2
        rw [a1] at a2
        exact Fin.ext (Option.some.inj a2)
      have hsurj := Finite.injective_iff_surjective.1 hinj
      obtain ⟨s, hsval⟩ := hsurj ⟨h0, hh0⟩
      have hgs : g s.1 s.2 = h0 := congrArg Fin.val hsval
      have e1 := (hg s.1 s.2).2
      rw [hgs] at e1
      have hagree := (inv.agree h0 s.1 hh0 s.2).2 e1
      rw [hm0] at hagree
      exact Option.noConfusion hagree

theorem gsFinal_inj {n : Nat} {hospital_prefs student_prefs : List (List Nat)}
    (HP : PermTable n hospital_prefs) (SP : PermTable n student_prefs) :
    ∀ h1 h2 s, h1 < n → h2 < n →
      getO (gsFinal n hospital_prefs student_prefs).hospital_match h1 = some s →
      getO (gsFinal n hospital_prefs student_prefs).hospital_match h2 = some s →
      h1 = h2 := by
  have inv := gsFinal_inv HP SP
  intro h1 h2 s hh1 hh2 e1 e2
  have hs : s < n := inv.hm_lt h1 s hh1 e1
  have a1 := (inv.agree h1 s hh1 hs).1 e1
  have a2 := (inv.agree h2 s hh2 hs).1 e2
  rw [a1] at a2
  exact Option.some.inj a2

theorem gsFinal_surj {n : Nat} {hospital_prefs student_prefs : List (List Nat)}
    (HP : PermTable n hospital_prefs) (SP : PermTable n student_prefs) :
    ∀ s, s < n → ∃ h, h < n ∧
      getO (gsFinal n hospital_prefs student_prefs).hospital_match h = some s := by
  have inv := gsFinal_inv HP SP
  intro s0 hs0
  have hpart : ∀ h, h < n → ∃ s, s < n ∧
      getO (gsFinal n hospital_prefs student_prefs).hospital_match h = some s :=
    gsFinal_matched HP SP
  choose g hg using hpart
  have hinj : Function.Injective
      (fun h : Fin n => (⟨g h.1 h.2, (hg h.1 h.2).1⟩ : Fin n)) := by
    intro h1 h2 he
    have he' : g h1.1 h1.2 = g h2.1 h2.2 := congrArg Fin.val he
    have e1 := (hg h1.1 h1.2).2
    rw [he'] at e1
    exact Fin.ext (gsFinal_inj HP SP h1.1 h2.1 (g h2.1 h2.2) h1.2 h2.2 e1 (hg h2.1 h2.2).2)
  have hsurj := Finite.injective_iff_surjective.1 hinj
  obtain ⟨h, hval⟩ := hsurj ⟨s0, hs0⟩
  have hgh : g h.1 h.2 = s0 := congrArg Fin.val hval
  exact ⟨h.1, h.2, by rw [← hgh]; exact (hg h.1 h.2).2⟩

/-- C2: for permutation preference tables, the pairing returned by
`gale_shapley` is a perfect matching on `0..n-1`: it has length `n`, every
proposer is matched to an in-range receiver (no entry is the unmatched
sentinel, modelled as `none`), and every receiver appears exactly once. -/
theorem gale_shapley_perfect_matching {n : Nat}
    {hospital_prefs student_prefs : List (List Nat)}
    (HP : PermTable n hospital_prefs) (SP : PermTable n student_prefs) :
    (gale_shapley n hospital_prefs student_prefs).length = n ∧
    (∀ h, h < n → ∃ s, s < n ∧
      getO (gale_shapley n hospital_prefs student_prefs) h = some s) ∧
    (∀ s, s < n → ∃! h, h < n ∧
      getO (gale_shapley n hospital_prefs student_prefs) h = some s) := by
  rw [gale_shapley_eq_final]
  refine ⟨(gsFinal_inv HP SP).len_hm, gsFinal_matched HP SP, ?_⟩
  intro s hs
  obtain ⟨h, hh, he⟩ := gsFinal_surj HP SP s hs
  refine ⟨h, ⟨hh, he⟩, ?_⟩
  rintro h2 ⟨hh2, he2⟩
  exact gsFinal_inj HP SP h2 h s hh2 hh he2 he

theorem gale_shapley_perfect_matching_witness :
    PermTable 1 [[0]] ∧
    ((gale_shapley 1 [[0]] [[0]]).length = 1 ∧
     (∀ h, h < 1 → ∃ s, s < 1 ∧ getO (gale_shapley 1 [[0]] [[0]]) h = some s) ∧
     (∀ s, s < 1 → ∃! h, h < 1 ∧ getO (gale_shapley 1 [[0]] [[0]]) h = some s)) :=
  ⟨by decide, gale_shapley_perfect_matching (by decide) (by decide)⟩

/-- C3: the engine's main loop terminates - after at most `n * n`
iterations no free hospital with students left to propose to remains - the
total number of proposals performed is at most `n * n`, and each
proposer's cursor only ever advances, so no (proposer, receiver) pair is
proposed twice. -/
theorem gale_shapley_terminates {n : Nat}
    {hospital_prefs student_prefs : List (List Nat)}
    (HP : PermTable n hospital_prefs) (SP : PermTable n student_prefs) :
    findFree n (gsFinal n hospital_prefs student_prefs) = none ∧
    (gsFinal n hospital_prefs student_prefs).proposal_count ≤ n * n ∧
    (∀ st st', GSStep n hospital_prefs (buildRanking n student_prefs) st st' →
      ∀ h, getN st.next_proposal h ≤ getN st'.next_proposal h) := by
  refine ⟨gsFinal_terminal n hospital_prefs student_prefs, ?_, ?_⟩
  · have hc := (gsFinal_inv HP SP).count
    omega
  · rintro st st' ⟨f, hf, rfl⟩
    intro h
    rw [propose_next_proposal]
    by_cases hef : f = h
    · subst hef
      by_cases hlen : f < st.next_proposal.length
      · rw [getN_set_self _ _ _ hlen]; omega
      · rw [List.set_eq_of_length_le (Nat.le_of_not_lt hlen)]
    · rw [getN_set_ne _ _ _ _ hef]

theorem gale_shapley_terminates_witness :
    PermTable 1 [[0]] ∧
    (findFree 1 (gsFinal 1 [[0]] [[0]]) = none ∧
     (gsFinal 1 [[0]] [[0]]).proposal_count ≤ 1 * 1 ∧
     (∀ st st', GSStep 1 [[0]] (buildRanking 1 [[0]]) st st' →
       ∀ h, getN st.next_proposal h ≤ getN st'.next_proposal h)) :=
  ⟨by decide, @gale_shapley_terminates 1 [[0]] [[0]] (by decide) (by decide)⟩

/-- C9: at every state reachable by the engine's main loop, the two match
maps agree: hospital `h` records student `s` exactly when student `s`
records hospital `h`, so the matched pairs form a consistent one-to-one
partial pairing. -/
theorem match_maps_consistent {n : Nat}
    {hospital_prefs student_prefs : List (List Nat)} {st : GSState}
    (HP : PermTable n hospital_prefs) (SP : PermTable n student_prefs)
    (hreach : GSReach n hospital_prefs (buildRanking n student_prefs) st) :
    ∀ h s, h < n → s < n →
      (getO st.hospital_match h = some s ↔ getO st.student_match s = some h) :=
  (GSInv_reach HP SP hreach).agree

theorem match_maps_consistent_witness :
    PermTable 1 [[0]] ∧
    (∀ h s, h < 1 → s < 1 →
      (getO (initState 1).hospital_match h = some s ↔
        getO (initState 1).student_match s = some h)) :=
  ⟨by decide, @match_maps_consistent 1 [[0]] [[0]] (initState 1)
    (by decide) (by decide) GSReach.init⟩

theorem GSReach_trans {n : Nat} {hospital_prefs student_ranking : List (List Nat)}
    {st st' : GSState}
    (h : GSReach n hospital_prefs student_ranking st)
    (hs : Relation.ReflTransGen (GSStep n hospital_prefs student_ranking) st st') :
    GSReach n hospital_prefs student_ranking st' := by
  induction hs with
  | refl => exact h
  | tail _ hstep ih => exact GSReach.step ih hstep

theorem step_student_match {n : Nat} {hospital_prefs student_prefs : List (List Nat)}
    {st st' : GSState}
    (HP : PermTable n hospital_prefs) (_SP : PermTable n student_prefs)
    (inv : GSInv n hospital_prefs student_prefs st)
    (hstep : GSStep n hospital_prefs (buildRanking n student_prefs) st st') :
    ∀ s c, getO st.student_match s = some c →
      ∃ c', getO st'.student_match s = some c' ∧
        getN (getRow (buildRanking n student_prefs) s) c' ≤
          getN (getRow (buildRanking n student_prefs) s) c ∧
        (c' ≠ c → getN (getRow (buildRanking n student_prefs) s) c' <
          getN (getRow (buildRanking n student_prefs) s) c) := by
  obtain ⟨f, hf, rfl⟩ := hstep
  obtain ⟨hfn, hmf, hnpf⟩ := findFree_some hf
  have hrowf : IsPerm n (getRow hospital_prefs f) := HP.2 f hfn
  have hstu_lt : getN (getRow hospital_prefs f) (getN st.next_proposal f) < n :=
    hrowf.getN_lt hnpf
  intro s c hsc
  cases hsm : getO st.student_match
      (getN (getRow hospital_prefs f) (getN st.next_proposal f)) with
  | none =>
      rw [propose_eq_accept hospital_prefs (buildRanking n student_prefs) st f hsm]
      dsimp only
      have hne : getN (getRow hospital_prefs f) (getN st.next_proposal f) ≠ s := by
        intro he; rw [he, hsc] at hsm; exact Option.noConfusion hsm
      rw [getO_set_ne _ _ _ _ hne]
      exact ⟨c, hsc, Nat.le_refl _, fun hc => absurd rfl hc⟩
  | some current =>
      by_cases hpref : getN (getRow (buildRanking n student_prefs)
          (getN (getRow hospital_prefs f) (getN st.next_proposal f))) f
        < getN (getRow (buildRanking n student_prefs)
          (getN (getRow hospital_prefs f) (getN st.next_proposal f))) current
      · rw [propose_eq_upgrade hospital_prefs (buildRanking n student_prefs) st f current
          hsm hpref]
        dsimp only
        by_cases hes : getN (getRow hospital_prefs f) (getN st.next_proposal f) = s
        · subst hes
          rw [hsc] at hsm
          have hcc : c = current := Option.some.inj hsm
          subst hcc
          rw [getO_set_self _ _ _ (inv.len_sm ▸ hstu_lt)]
          exact ⟨f, rfl, Nat.le_of_lt hpref, fun _ => hpref⟩
        · rw [getO_set_ne _ _ _ _ hes]
          exact ⟨c, hsc, Nat.le_refl _, fun hc => absurd rfl hc⟩
      · rw [propose_eq_reject hospital_prefs (buildRanking n student_prefs) st f current
          hsm hpref]
        exact ⟨c, hsc, Nat.le_refl _, fun hc => absurd rfl hc⟩

/-- C10: receivers only trade up during a run: once matched, a receiver
stays matched for the rest of the run and its partner's rank in the
receiver's ranking table never increases; whenever one engine iteration
changes a receiver's partner, the new partner has a strictly smaller
(better) rank than the old one. -/
theorem receivers_trade_up {n : Nat}
    {hospital_prefs student_prefs : List (List Nat)} {st : GSState}
    (HP : PermTable n hospital_prefs) (SP : PermTable n student_prefs)
    (hreach : GSReach n hospital_prefs (buildRanking n student_prefs) st) :
    (∀ st', Relation.ReflTransGen
        (GSStep n hospital_prefs (buildRanking n student_prefs)) st st' →
      ∀ s c, getO st.student_match s = some c →
        ∃ c', getO st'.student_match s = some c' ∧
          getN (getRow (buildRanking n student_prefs) s) c' ≤
            getN (getRow (buildRanking n student_prefs) s) c) ∧
    (∀ st', GSStep n hospital_prefs (buildRanking n student_prefs) st st' →
      ∀ s c c', getO st.student_match s = some c →
        getO st'.student_match s = some c' → c' ≠ c →
        getN (getRow (buildRanking n student_prefs) s) c' <
          getN (getRow (buildRanking n student_prefs) s) c) := by
  constructor
  · intro st' hsteps
    induction hsteps with
    | refl => intro s c hc; exact ⟨c, hc, Nat.le_refl _⟩
    | tail hab hstep ih =>
        intro s c hc
        obtain ⟨c1, hc1, hle1⟩ := ih s c hc
        have invb := GSInv_reach HP SP (GSReach_trans hreach hab)
        obtain ⟨c2, hc2, hle2, _⟩ := step_student_match HP SP invb hstep s c1 hc1
        exact ⟨c2, hc2, Nat.le_trans hle2 hle1⟩
  · intro st' hstep s c c' hc hc' hne
    have inv := GSInv_reach HP SP hreach
    obtain ⟨c2, hc2, _, hstrict⟩ := step_student_match HP SP inv hstep s c hc
    rw [hc'] at hc2
    have hcc : c' = c2 := Option.some.inj hc2
    subst hcc
    exact hstrict hne

theorem receivers_trade_up_witness :
    PermTable 1 [[0]] ∧
    ((∀ st', Relation.ReflTransGen
        (GSStep 1 [[0]] (buildRanking 1 [[0]])) (initState 1) st' →
      ∀ s c, getO (initState 1).student_match s = some c →
        ∃ c', getO st'.student_match s = some c' ∧
          getN (getRow (buildRanking 1 [[0]]) s) c' ≤
            getN (getRow (buildRanking 1 [[0]]) s) c) ∧
    (∀ st', GSStep 1 [[0]] (buildRanking 1 [[0]]) (initState 1) st' →
      ∀ s c c', getO (initState 1).student_match s = some c →
        getO st'.student_match s = some c' → c' ≠ c →
        getN (getRow (buildRanking 1 [[0]]) s) c' <
          getN (getRow (buildRanking 1 [[0]]) s) c)) :=
  ⟨by decide, @receivers_trade_up 1 [[0]] [[0]] (initState 1)
    (by decide) (by decide) GSReach.init⟩

/-! Facts about the verifier's dictionary scan, inverse pairing and
blocking-pair search. -/

theorem lookup_cons_self {k v : Nat} {es : List (Nat × Nat)} :
    ((k, v) :: es).lookup k = some v := by
  rw [List.lookup_cons, beq_self_eq_true]

theorem lookup_cons_ne {k v a : Nat} {es : List (Nat × Nat)} (h : a ≠ k) :
    ((k, v) :: es).lookup a = es.lookup a := by
  rw [List.lookup_cons, beq_false_of_ne h]

theorem lookup_cons_none {k v a : Nat} {es : List (Nat × Nat)}
    (h : (((k, v) :: es).lookup a) = none) : a ≠ k ∧ es.lookup a = none := by
  by_cases he : a = k
  · subst he
    rw [lookup_cons_self] at h
    exact absurd h (by simp)
  · rw [lookup_cons_ne he] at h
    exact ⟨he, h⟩

theorem lookup_mem {a b : Nat} : ∀ {es : List (Nat × Nat)},
    es.lookup a = some b → (a, b) ∈ es := by
  intro es
  induction es with
  | nil => intro h; exact absurd h (by simp)
  | cons kv rest ih =>
      obtain ⟨k, v⟩ := kv
      intro h
      by_cases he : a = k
      · subst he
        rw [lookup_cons_self] at h
        rw [← Option.some.inj h]
        exact List.mem_cons_self ..
      · rw [lookup_cons_ne he] at h
        exact List.mem_cons_of_mem _ (ih h)

theorem dictScan_no_dup {matching : List (Option Nat)} :
    ∀ (hs : List Nat) (seen : List (Nat × Nat)),
      (∀ h ∈ hs, seen.lookup ((getO matching h).getD 0) = none) →
      (∀ h1 ∈ hs, ∀ h2 ∈ hs, h1 ≠ h2 →
        (getO matching h1).getD 0 ≠ (getO matching h2).getD 0) →
      hs.Nodup →
      (dictScan matching seen hs).1 = none ∧
      (dictScan matching seen hs).2.length = seen.length + hs.length := by
  intro hs
  induction hs with
  | nil => intro seen _ _ _; exact ⟨rfl, rfl⟩
  | cons h rest ih =>
      intro seen hlook hinj hnd
      rw [dictScan]
      rw [hlook h (List.mem_cons_self ..)]
      have hres := ih (((getO matching h).getD 0, h) :: seen) ?_ ?_ (List.Nodup.of_cons hnd)
      · refine ⟨hres.1, ?_⟩
        rw [hres.2]
        simp only [List.length_cons]
        omega
      · intro h2 hm2
        have hne : (getO matching h2).getD 0 ≠ (getO matching h).getD 0 :=
          hinj h2 (List.mem_cons_of_mem _ hm2) h (List.mem_cons_self ..)
            (fun he => (List.Nodup.not_mem hnd) (he ▸ hm2))
        rw [lookup_cons_ne hne]
        exact hlook h2 (List.mem_cons_of_mem _ hm2)
      · intro h1 hm1 h2 hm2 hne
        exact hinj h1 (List.mem_cons_of_mem _ hm1) h2 (List.mem_cons_of_mem _ hm2) hne

theorem dictScan_sound {matching : List (Option Nat)} :
    ∀ (hs : List Nat) (seen : List (Nat × Nat)) {s h1 h2 : Nat},
      (∀ h ∈ hs, getO matching h ≠ none) →
      (∀ p ∈ seen, getO matching p.2 = some p.1) →
      (∀ p ∈ seen, p.2 ∉ hs) →
      hs.Nodup →
      (dictScan matching seen hs).1 = some (s, h1, h2) →
      getO matching h1 = some s ∧ getO matching h2 = some s ∧ h1 ≠ h2 := by
  intro hs
  induction hs with
  | nil =>
      intro seen s h1 h2 _ _ _ _ hres
      exact absurd hres (by simp [dictScan])
  | cons h rest ih =>
      intro seen s h1 h2 hm hseen hdisj hnd hres
      rw [dictScan] at hres
      have hsome : getO matching h = some ((getO matching h).getD 0) := by
        cases hgo : getO matching h with
        | none => exact absurd hgo (hm h (List.mem_cons_self ..))
        | some v => rfl
      cases hlk : seen.lookup ((getO matching h).getD 0) with
      | some hx =>
          rw [hlk] at hres
          have hinj := Option.some.inj hres
          have e1 : (getO matching h).getD 0 = s := congrArg Prod.fst hinj
          have e23 := congrArg Prod.snd hinj
          have e2 : hx = h1 := congrArg Prod.fst e23
          have e3 : h = h2 := congrArg Prod.snd e23
          have hmem := lookup_mem hlk
          have hx_eq := hseen _ hmem
          refine ⟨?_, ?_, ?_⟩
          · rw [← e2, ← e1]; exact hx_eq
          · rw [← e3, ← e1]; exact hsome
          · intro he
            have := hdisj _ hmem
            rw [e2, he, ← e3] at this
            exact this (List.mem_cons_self ..)
      | none =>
          rw [hlk] at hres
          refine ih (((getO matching h).getD 0, h) :: seen) ?_ ?_ ?_
            (List.Nodup.of_cons hnd) hres
          · intro h3 hm3; exact hm h3 (List.mem_cons_of_mem _ hm3)
          · intro p hp
            rcases List.mem_cons.1 hp with he | hmem
            · rw [he]; exact hsome
            · exact hseen p hmem
          · intro p hp
            rcases List.mem_cons.1 hp with he | hmem
            · rw [he]; exact List.Nodup.not_mem hnd
            · exact fun hc => (hdisj p hmem) (List.mem_cons_of_mem _ hc)

theorem dictScan_none_lookup {matching : List (Option Nat)} :
    ∀ (hs : List Nat) (seen : List (Nat × Nat)),
      (dictScan matching seen hs).1 = none →
      ∀ h ∈ hs, seen.lookup ((getO matching h).getD 0) = none := by
  intro hs
  induction hs with
  | nil => intro seen _ h hm; exact absurd hm (List.not_mem_nil h)
  | cons h rest ih =>
      intro seen hres h2 hm2
      rw [dictScan] at hres
      cases hlk : seen.lookup ((getO matching h).getD 0) with
      | some hx => rw [hlk] at hres; exact absurd hres (by simp)
      | none =>
          rw [hlk] at hres
          rcases List.mem_cons.1 hm2 with he | hmem
          · rw [he]; exact hlk
          · exact (lookup_cons_none (ih _ hres h2 hmem)).2

theorem dictScan_none_inj {matching : List (Option Nat)} :
    ∀ (hs : List Nat) (seen : List (Nat × Nat)), hs.Nodup →
      (dictScan matching seen hs).1 = none →
      ∀ h1 ∈ hs, ∀ h2 ∈ hs, h1 ≠ h2 →
        (getO matching h1).getD 0 ≠ (getO matching h2).getD 0 := by
  intro hs
  induction hs with
  | nil => intro seen _ _ h1 hm1; exact absurd hm1 (List.not_mem_nil h1)
  | cons h rest ih =>
      intro seen hnd hres h1 hm1 h2 hm2 hne
      rw [dictScan] at hres
      cases hlk : seen.lookup ((getO matching h).getD 0) with
      | some hx => rw [hlk] at hres; exact absurd hres (by simp)
      | none =>
          rw [hlk] at hres
          have hrest : ∀ h3 ∈ rest,
              (getO matching h3).getD 0 ≠ (getO matching h).getD 0 := by
            intro h3 hm3
            exact (lookup_cons_none (dictScan_none_lookup rest _ hres h3 hm3)).1
          rcases List.mem_cons.1 hm1 with he1 | hmem1 <;>
            rcases List.mem_cons.1 hm2 with he2 | hmem2
          · exact absurd (he1.trans he2.symm) hne
          · rw [he1]; exact fun hc => (hrest h2 hmem2) hc.symm
          · rw [he2]; exact hrest h1 hmem1
          · exact ih _ (List.Nodup.of_cons hnd) hres h1 hmem1 h2 hmem2 hne

theorem buildSMAux_length {matching : List (Option Nat)} :
    ∀ (hs : List Nat) (acc : List (Option Nat)),
      (buildStudentMatchAux matching acc hs).length = acc.length := by
  intro hs
  induction hs with
  | nil => intro acc; rfl
  | cons h rest ih =>
      intro acc
      rw [buildStudentMatchAux, ih, List.length_set]

theorem buildSMAux_not_mem {matching : List (Option Nat)} {s : Nat} :
    ∀ (hs : List Nat) (acc : List (Option Nat)),
      (∀ h ∈ hs, (getO matching h).getD 0 ≠ s) →
      getO (buildStudentMatchAux matching acc hs) s = getO acc s := by
  intro hs
  induction hs with
  | nil => intro acc _; rfl
  | cons h rest ih =>
      intro acc hne
      rw [buildStudentMatchAux,
        ih _ (fun h2 hm2 => hne h2 (List.mem_cons_of_mem _ hm2)),
        getO_set_ne _ _ _ _ (hne h (List.mem_cons_self ..))]

theorem buildSMAux_unique {matching : List (Option Nat)} {s h0 : Nat} :
    ∀ (hs : List Nat) (acc : List (Option Nat)),
      hs.Nodup → h0 ∈ hs → (getO matching h0).getD 0 = s →
      (∀ h ∈ hs, (getO matching h).getD 0 = s → h = h0) →
      s < acc.length →
      getO (buildStudentMatchAux matching acc hs) s = some h0 := by
  intro hs
  induction hs with
  | nil => intro acc _ hm; exact absurd hm (List.not_mem_nil h0)
  | cons h rest ih =>
      intro acc hnd hm0 hs0 huniq hlen
      rcases List.mem_cons.1 hm0 with he | hmem
      · subst he
        rw [buildStudentMatchAux, hs0]
        rw [buildSMAux_not_mem rest _ ?_]
        · rw [getO_set_self _ _ _ hlen]
        · intro h2 hm2 hc
          exact (List.Nodup.not_mem hnd) ((huniq h2 (List.mem_cons_of_mem _ hm2) hc) ▸ hm2)
      · have hne : (getO matching h).getD 0 ≠ s := by
          intro hc
          have := huniq h (List.mem_cons_self ..) hc
          subst this
          exact (List.Nodup.not_mem hnd) hmem
        rw [buildStudentMatchAux]
        refine ih _ (List.Nodup.of_cons hnd) hmem hs0
          (fun h2 hm2 hc => huniq h2 (List.mem_cons_of_mem _ hm2) hc) ?_
        rw [List.length_set]
        exact hlen

theorem buildStudentMatch_eq {n : Nat} {matching : List (Option Nat)}
    (hall : ∀ h, h < n → getO matching h ≠ none)
    (hinj : ∀ h1 h2, h1 < n → h2 < n → getO matching h1 = getO matching h2 → h1 = h2)
    {s h0 : Nat} (hs : s < n) (hh0 : h0 < n) (he : getO matching h0 = some s) :
    getO (buildStudentMatch n matching) s = some h0 := by
  refine buildSMAux_unique (List.range n) (List.replicate n none)
    (List.nodup_range n) (List.mem_range.2 hh0) (by rw [he]; rfl) ?_
    (by rw [List.length_replicate]; exact hs)
  intro h hm hc
  have hh : h < n := List.mem_range.1 hm
  refine hinj h h0 hh hh0 ?_
  cases hgo : getO matching h with
  | none => exact absurd hgo (hall h hh)
  | some v =>
      rw [hgo] at hc
      rw [he, ← hc]
      rfl

theorem findBlocking_eq_none {pred : Nat → Nat → Bool} :
    ∀ (hs ss : List Nat), (∀ h ∈ hs, ∀ s ∈ ss, pred h s = false) →
      findBlocking pred hs ss = none := by
  intro hs
  induction hs with
  | nil => intro ss _; rfl
  | cons h rest ih =>
      intro ss hp
      rw [findBlocking]
      rw [List.find?_eq_none.2
        (fun s hsm => by rw [hp h (List.mem_cons_self ..) s hsm]; simp)]
      exact ih ss (fun h2 hm s hsm => hp h2 (List.mem_cons_of_mem _ hm) s hsm)

theorem check_validity_of_valid {n : Nat} {matching : List (Option Nat)}
    (hall : ∀ h, h < n → getO matching h ≠ none)
    (hinj : ∀ h1 h2, h1 < n → h2 < n → getO matching h1 = getO matching h2 → h1 = h2) :
    check_validity n matching = ValidityResult.valid ∧
    (dictScan matching [] (List.range n)).2.length = n := by
  have hfind : findUnmatchedHospital n matching = none := by
    unfold findUnmatchedHospital
    refine List.find?_eq_none.2 ?_
    intro h hm hc
    exact (hall h (List.mem_range.1 hm)) (of_decide_eq_true hc)
  have hdist : ∀ h1 ∈ List.range n, ∀ h2 ∈ List.range n, h1 ≠ h2 →
      (getO matching h1).getD 0 ≠ (getO matching h2).getD 0 := by
    intro h1 hm1 h2 hm2 hne hc
    have hh1 := List.mem_range.1 hm1
    have hh2 := List.mem_range.1 hm2
    refine hne (hinj h1 h2 hh1 hh2 ?_)
    cases g1 : getO matching h1 with
    | none => exact absurd g1 (hall h1 hh1)
    | some v1 =>
        cases g2 : getO matching h2 with
        | none => exact absurd g2 (hall h2 hh2)
        | some v2 =>
            rw [g1, g2] at hc
            rw [show v1 = (some v1).getD 0 from rfl, hc]
            rfl
  have hscan := @dictScan_no_dup matching (List.range n) [] (fun h _ => rfl)
    hdist (List.nodup_range n)
  refine ⟨?_, by rw [hscan.2, List.length_nil, List.length_range]; omega⟩
  unfold check_validity
  rw [hfind]
  cases hde : dictScan matching [] (List.range n) with
  | mk r1 r2 =>
      have h1 := hscan.1
      have h2 := hscan.2
      rw [hde] at h1 h2
      dsimp only at h1 h2
      subst h1
      dsimp only
      rw [List.length_nil, List.length_range] at h2
      rw [if_neg (by omega)]

/-- C1: for permutation preference tables, the pairing produced by the
engine is stable: feeding the engine's own output into the verifier's
classification (validity first, then the exhaustive blocking-pair scan)
always yields Stable. -/
theorem engine_output_stable {n : Nat} {hospital_prefs student_prefs : List (List Nat)}
    (HP : PermTable n hospital_prefs) (SP : PermTable n student_prefs) :
    verify n hospital_prefs student_prefs
      (gale_shapley n hospital_prefs student_prefs) = Verdict.stable := by
  have inv := gsFinal_inv HP SP
  have hmatched := gsFinal_matched HP SP
  set m := gale_shapley n hospital_prefs student_prefs with hmdef
  have hmfinal : m = (gsFinal n hospital_prefs student_prefs).hospital_match := rfl
  have hall : ∀ h, h < n → getO m h ≠ none := by
    intro h hh hc
    obtain ⟨s, _, he⟩ := hmatched h hh
    rw [hmfinal, he] at hc
    exact Option.noConfusion hc
  have hinj : ∀ h1 h2, h1 < n → h2 < n → getO m h1 = getO m h2 → h1 = h2 := by
    intro h1 h2 hh1 hh2 he
    obtain ⟨s, hs, he1⟩ := hmatched h1 hh1
    rw [hmfinal] at he
    exact gsFinal_inj HP SP h1 h2 s hh1 hh2 he1 (by rw [← he]; exact he1)
  have hvalid := check_validity_of_valid hall hinj
  have hstab : check_stability n hospital_prefs student_prefs m = none := by
    unfold check_stability
    refine findBlocking_eq_none _ _ ?_
    intro h hmemh s hmems
    have hh := List.mem_range.1 hmemh
    have hs := List.mem_range.1 hmems
    obtain ⟨cs, hcs_lt, hcs⟩ := hmatched h hh
    have hgOm : getO m h = some cs := by rw [hmfinal]; exact hcs
    unfold isBlockingAt
    rw [hgOm]
    simp only [Option.getD_some]
    by_cases hcss : cs = s
    · rw [if_pos hcss]
    · rw [if_neg hcss]
      by_cases hP : getN (getRow (buildRanking n hospital_prefs) h) s
          < getN (getRow (buildRanking n hospital_prefs) h) cs
      · obtain ⟨hpos, hrow⟩ := inv.cursor h cs hh hcs
        have hnpn := inv.np_le h hh
        have hnp1 : getN (gsFinal n hospital_prefs student_prefs).next_proposal h - 1
            < n := by omega
        have hcs_rank : getN (getRow (buildRanking n hospital_prefs) h) cs
            = getN (gsFinal n hospital_prefs student_prefs).next_proposal h - 1 := by
          rw [getRow_buildRanking HP.1 hh, ← hrow]
          exact rankRow_getN (HP.2 h hh) hnp1
        have hk0_lt : getN (getRow (buildRanking n hospital_prefs) h) s < n := by
          rw [getRow_buildRanking HP.1 hh]
          exact rankRow_lt (HP.2 h hh) hs
        have hrow_s : getN (getRow hospital_prefs h)
            (getN (getRow (buildRanking n hospital_prefs) h) s) = s := by
          rw [getRow_buildRanking HP.1 hh]
          exact getN_rankRow (HP.2 h hh) hs
        have hk0_np : getN (getRow (buildRanking n hospital_prefs) h) s
            < getN (gsFinal n hospital_prefs student_prefs).next_proposal h := by
          omega
        obtain ⟨h2, hsm2, hrk⟩ := inv.proposed h
          (getN (getRow (buildRanking n hospital_prefs) h) s) hh hk0_np
        rw [hrow_s] at hsm2 hrk
        have hh2 : h2 < n := inv.sm_lt s h2 hs hsm2
        have hhm2 : getO m h2 = some s := by
          rw [hmfinal]
          exact (inv.agree h2 s hh2 hs).2 hsm2
        have hbsm : getO (buildStudentMatch n m) s = some h2 :=
          buildStudentMatch_eq hall hinj hs hh2 hhm2
        rw [hbsm]
        simp only [Option.getD_some]
        rw [decide_eq_false (by omega : ¬ getN (getRow (buildRanking n student_prefs) s) h
          < getN (getRow (buildRanking n student_prefs) s) h2), Bool.and_false]
      · rw [decide_eq_false hP, Bool.false_and]
  unfold verify
  rw [hvalid.1, hstab]

theorem engine_output_stable_witness :
    PermTable 1 [[0]] ∧
    verify 1 [[0]] [[0]] (gale_shapley 1 [[0]] [[0]]) = Verdict.stable :=
  ⟨by decide, @engine_output_stable 1 [[0]] [[0]] (by decide) (by decide)⟩

/-- C6: proposer-optimality. For permutation preference tables and any
stable perfect matching `M` of the same instance, no proposer prefers its
partner under `M` to the receiver the engine assigns it: the engine's
receiver has rank less than or equal to the rank of `M`'s receiver in that
proposer's preference row. -/
theorem engine_proposer_optimal {n : Nat} {hospital_prefs student_prefs : List (List Nat)}
    (HP : PermTable n hospital_prefs) (SP : PermTable n student_prefs)
    {M : Nat → Nat} (hM : IsStable n hospital_prefs student_prefs M) :
    ∀ h, h < n →
      rankOf (getRow hospital_prefs h)
        ((getO (gale_shapley n hospital_prefs student_prefs) h).getD 0)
      ≤ rankOf (getRow hospital_prefs h) (M h) := by
  intro h hh
  have inv := gsFinal_inv HP SP
  obtain ⟨cs, hcs_lt, hcs⟩ := gsFinal_matched HP SP h hh
  have hgOm : getO (gale_shapley n hospital_prefs student_prefs) h = some cs := hcs
  rw [hgOm]
  simp only [Option.getD_some]
  by_cases hmc : M h = cs
  · rw [hmc]
  · obtain ⟨hpos, hrow⟩ := inv.cursor h cs hh hcs
    have hnpn := inv.np_le h hh
    have hrej : ∀ k, k < getN (gsFinal n hospital_prefs student_prefs).next_proposal h →
        k ≠ getN (gsFinal n hospital_prefs student_prefs).next_proposal h - 1 →
        ∀ M2, IsStable n hospital_prefs student_prefs M2 →
          M2 h ≠ getN (getRow hospital_prefs h) k := by
      intro k hk hne M2 hM2
      refine inv.rejected h k hh hk ?_ M2 hM2
      rw [hcs]
      intro hc
      have hke : getN (getRow hospital_prefs h) k = cs := (Option.some.inj hc).symm
      rw [← hrow] at hke
      exact hne ((HP.2 h hh).getN_inj (Nat.lt_of_lt_of_le hk hnpn) (by omega) hke)
    have hMw : M h ≠ getN (getRow hospital_prefs h)
        (getN (gsFinal n hospital_prefs student_prefs).next_proposal h - 1) := by
      rw [hrow]; exact hmc
    have hr := stable_partner_rank HP hh hnpn (by omega) hrej hM hMw
    rw [hrow] at hr
    exact Nat.le_of_lt hr

theorem engine_proposer_optimal_witness :
    (PermTable 1 [[0]] ∧ IsStable 1 [[0]] [[0]] (fun _ => 0)) ∧
    (∀ h, h < 1 →
      rankOf (getRow [[0]] h) ((getO (gale_shapley 1 [[0]] [[0]]) h).getD 0)
        ≤ rankOf (getRow [[0]] h) ((fun _ => 0) h)) :=
  ⟨⟨by decide, by decide⟩,
    @engine_proposer_optimal 1 [[0]] [[0]] (by decide) (by decide)
      (fun _ => 0) (by decide)⟩

/-- C5: on every input the verifier's classification is exactly one of
Invalid, Unstable or Stable, and validity strictly precedes stability: a
pairing failing the validity check is reported Invalid with the validity
defect, and the stability scan's outcome is consulted only when the
validity check returned valid. -/
theorem verify_classification (n : Nat) (hospital_prefs student_prefs : List (List Nat))
    (matching : List (Option Nat)) :
    (∃ r, r ≠ ValidityResult.valid ∧ check_validity n matching = r ∧
      verify n hospital_prefs student_prefs matching = Verdict.invalid r) ∨
    (check_validity n matching = ValidityResult.valid ∧
      ((∃ p r, check_stability n hospital_prefs student_prefs matching = some (p, r) ∧
        verify n hospital_prefs student_prefs matching = Verdict.unstable p r) ∨
       (check_stability n hospital_prefs student_prefs matching = none ∧
        verify n hospital_prefs student_prefs matching = Verdict.stable))) := by
  unfold verify
  cases hv : check_validity n matching with
  | valid =>
      refine Or.inr ⟨rfl, ?_⟩
      cases hs : check_stability n hospital_prefs student_prefs matching with
      | none => exact Or.inr ⟨rfl, rfl⟩
      | some pr =>
          obtain ⟨p, r⟩ := pr
          exact Or.inl ⟨p, r, rfl, rfl⟩
  | unmatchedHospital h =>
      exact Or.inl ⟨_, fun hc => ValidityResult.noConfusion hc, rfl, rfl⟩
  | duplicateStudent s h1 h2 =>
      exact Or.inl ⟨_, fun hc => ValidityResult.noConfusion hc, rfl, rfl⟩
  | unmatchedStudents l =>
      exact Or.inl ⟨_, fun hc => ValidityResult.noConfusion hc, rfl, rfl⟩

/-- A total injective assignment has a partner for every receiver
(pigeonhole on `Fin n`). -/
theorem matching_surj {n : Nat} {matching : List (Option Nat)}
    (hall : ∀ h, h < n → ∃ s, s < n ∧ getO matching h = some s)
    (hinj : ∀ h1 h2, h1 < n → h2 < n →
      getO matching h1 = getO matching h2 → h1 = h2) :
    ∀ s, s < n → ∃ h, h < n ∧ getO matching h = some s := by
  intro s0 hs0
  choose g hg using hall
  have hfinj : Function.Injective
      (fun h : Fin n => (⟨g h.1 h.2, (hg h.1 h.2).1⟩ : Fin n)) := by
    intro h1 h2 he
    have he' : g h1.1 h1.2 = g h2.1 h2.2 := congrArg Fin.val he
    have e1 := (hg h1.1 h1.2).2
    have e2 := (hg h2.1 h2.2).2
    rw [he'] at e1
    exact Fin.ext (hinj h1.1 h2.1 h1.2 h2.2 (e1.trans e2.symm))
  obtain ⟨h, hval⟩ := Finite.injective_iff_surjective.1 hfinj ⟨s0, hs0⟩
  have hgh : g h.1 h.2 = s0 := congrArg Fin.val hval
  exact ⟨h.1, h.2, by rw [← hgh]; exact (hg h.1 h.2).2⟩

/-- C7: the defensive receiver-coverage branch of check_validity is
unreachable under the earlier checks: when the pairing has length `n`,
every proposer has an in-range receiver and no two proposers share a
receiver, the scan dictionary ends with exactly `n` entries (every
receiver covered) and check_validity returns valid without entering the
uncovered-receiver branch. -/
theorem check_validity_coverage {n : Nat} {matching : List (Option Nat)}
    (_hlen : matching.length = n)
    (hall : ∀ h, h < n → ∃ s, s < n ∧ getO matching h = some s)
    (hinj : ∀ h1 h2, h1 < n → h2 < n →
      getO matching h1 = getO matching h2 → h1 = h2) :
    check_validity n matching = ValidityResult.valid ∧
    (dictScan matching [] (List.range n)).2.length = n := by
  refine check_validity_of_valid ?_ hinj
  intro h hh hc
  obtain ⟨s, _, he⟩ := hall h hh
  rw [he] at hc
  exact Option.noConfusion hc

theorem check_validity_coverage_witness :
    (([some 0, some 1] : List (Option Nat)).length = 2 ∧
     (∀ h, h < 2 → ∃ s, s < 2 ∧ getO [some 0, some 1] h = some s) ∧
     (∀ h1 h2, h1 < 2 → h2 < 2 →
       getO [some 0, some 1] h1 = getO [some 0, some 1] h2 → h1 = h2)) ∧
    (check_validity 2 [some 0, some 1] = ValidityResult.valid ∧
     (dictScan [some 0, some 1] [] (List.range 2)).2.length = 2) := by
  have hinj2 : ∀ h1 h2, h1 < 2 → h2 < 2 →
      getO [some 0, some 1] h1 = getO [some 0, some 1] h2 → h1 = h2 := by
    have hd : ∀ h1, h1 < 2 → ∀ h2, h2 < 2 →
        getO [some 0, some 1] h1 = getO [some 0, some 1] h2 → h1 = h2 := by decide
    intro h1 h2 hh1 hh2
    exact hd h1 hh1 h2 hh2
  exact ⟨⟨by decide, by decide, hinj2⟩,
    @check_validity_coverage 2 [some 0, some 1] (by decide) (by decide) hinj2⟩

/-- C8 counterexample: the claim quantifies over every pairing with a
duplicated receiver, but a pairing that also has an unmatched proposer is
reported through the unmatched-proposer branch, whose message names no
duplicated receiver: at n = 3 with pairing [none, some 1, some 1],
proposers 1 and 2 share receiver 1 yet the result is the
unmatched-proposer report for proposer 0, not a duplicate report. -/
theorem duplicate_claim_counterexample :
    (getO [none, some 1, some 1] 1 = some 1 ∧
     getO [none, some 1, some 1] 2 = some 1 ∧ (1 : Nat) ≠ 2) ∧
    check_validity 3 [none, some 1, some 1] = ValidityResult.unmatchedHospital 0 ∧
    (∀ s h1 h2, check_validity 3 [none, some 1, some 1]
      ≠ ValidityResult.duplicateStudent s h1 h2) := by
  have hres : check_validity 3 [none, some 1, some 1]
      = ValidityResult.unmatchedHospital 0 := by decide
  refine ⟨by decide, hres, ?_⟩
  intro s h1 h2 hc
  rw [hres] at hc
  exact ValidityResult.noConfusion hc

/-- C8 (amended): for every candidate pairing in which every proposer is
matched, if two proposers map to the same receiver then check_validity
returns the duplicate report, identifying a duplicated receiver together
with two distinct conflicting proposers that both map to it; in
particular the n = 2 pairing {0:1, 1:1} yields the duplicate report
naming receiver 1 and proposers 0 and 1. -/
theorem duplicate_receiver_reported {n : Nat} {matching : List (Option Nat)}
    (hall : ∀ h, h < n → getO matching h ≠ none)
    (hdup : ∃ h1 h2, h1 < n ∧ h2 < n ∧ h1 ≠ h2 ∧
      getO matching h1 = getO matching h2) :
    ∃ s h1 h2, check_validity n matching = ValidityResult.duplicateStudent s h1 h2 ∧
      h1 ≠ h2 ∧ getO matching h1 = some s ∧ getO matching h2 = some s := by
  have hfind : findUnmatchedHospital n matching = none := by
    unfold findUnmatchedHospital
    refine List.find?_eq_none.2 ?_
    intro h hm hc
    exact (hall h (List.mem_range.1 hm)) (of_decide_eq_true hc)
  cases hde : dictScan matching [] (List.range n) with
  | mk r1 r2 =>
      cases r1 with
      | none =>
          exfalso
          obtain ⟨h1, h2, hh1, hh2, hne, he⟩ := hdup
          have hinj := dictScan_none_inj (List.range n) [] (List.nodup_range n)
            (by rw [hde]) h1 (List.mem_range.2 hh1) h2 (List.mem_range.2 hh2) hne
          exact hinj (by rw [he])
      | some t =>
          obtain ⟨s, h1, h2⟩ := t
          have hsound := dictScan_sound (List.range n) []
            (fun h hm => hall h (List.mem_range.1 hm))
            (fun p hp => absurd hp (List.not_mem_nil p))
            (fun p hp => absurd hp (List.not_mem_nil p))
            (List.nodup_range n) (by rw [hde])
          refine ⟨s, h1, h2, ?_, hsound.2.2, hsound.1, hsound.2.1⟩
          unfold check_validity
          rw [hfind, hde]

theorem duplicate_receiver_reported_witness :
    (∀ h, h < 2 → getO [some 1, some 1] h ≠ none) ∧
    (∃ s h1 h2, check_validity 2 [some 1, some 1]
        = ValidityResult.duplicateStudent s h1 h2 ∧
      h1 ≠ h2 ∧ getO [some 1, some 1] h1 = some s ∧
      getO [some 1, some 1] h2 = some s) ∧
    check_validity 2 [some 1, some 1] = ValidityResult.duplicateStudent 1 0 1 :=
  ⟨by decide,
    @duplicate_receiver_reported 2 [some 1, some 1] (by decide) ⟨0, 1, by decide⟩,
    by decide⟩

theorem find?_first {q : Nat → Bool} :
    ∀ {ss : List Nat}, ss.Pairwise (· < ·) →
      ∀ {s0 : Nat}, ss.find? q = some s0 →
        ∀ s2 ∈ ss, q s2 = true → s0 ≤ s2 := by
  intro ss
  induction ss with
  | nil => intro _ s0 hf; exact absurd hf (by simp)
  | cons a rest ih =>
      intro hpw s0 hf s2 hm2 hq2
      by_cases hqa : q a = true
      · rw [List.find?_cons_of_pos _ hqa] at hf
        rw [← Option.some.inj hf]
        rcases List.mem_cons.1 hm2 with he | hmem
        · rw [he]
        · exact Nat.le_of_lt ((List.pairwise_cons.1 hpw).1 s2 hmem)
      · rw [List.find?_cons_of_neg _ hqa] at hf
        rcases List.mem_cons.1 hm2 with he | hmem
        · rw [he] at hq2; exact absurd hq2 hqa
        · exact ih (List.pairwise_cons.1 hpw).2 hf s2 hmem hq2

theorem findBlocking_none_forall {pred : Nat → Nat → Bool} :
    ∀ (hs ss : List Nat), findBlocking pred hs ss = none →
      ∀ h ∈ hs, ∀ s ∈ ss, pred h s = false := by
  intro hs
  induction hs with
  | nil => intro ss _ h hm; exact absurd hm (List.not_mem_nil h)
  | cons h rest ih =>
      intro ss hres h2 hm2 s hsm
      rw [findBlocking] at hres
      cases hf : ss.find? (pred h) with
      | some s0 => rw [hf] at hres; exact absurd hres (by simp)
      | none =>
          rw [hf] at hres
          rcases List.mem_cons.1 hm2 with he | hmem
          · subst he
            exact Bool.eq_false_iff.2 (List.find?_eq_none.1 hf s hsm)
          · exact ih ss hres h2 hmem s hsm

theorem findBlocking_some_spec {pred : Nat → Nat → Bool} :
    ∀ (hs ss : List Nat), hs.Pairwise (· < ·) → ss.Pairwise (· < ·) →
      ∀ {p r : Nat}, findBlocking pred hs ss = some (p, r) →
        p ∈ hs ∧ r ∈ ss ∧ pred p r = true ∧
        ∀ p2 ∈ hs, ∀ r2 ∈ ss, pred p2 r2 = true →
          p < p2 ∨ (p = p2 ∧ r ≤ r2) := by
  intro hs
  induction hs with
  | nil => intro ss _ _ p r hres; exact absurd hres (by simp [findBlocking])
  | cons h rest ih =>
      intro ss hpwh hpws p r hres
      rw [findBlocking] at hres
      cases hf : ss.find? (pred h) with
      | some s0 =>
          rw [hf] at hres
          have hinj := Option.some.inj hres
          have e1 : h = p := congrArg Prod.fst hinj
          have e2 : s0 = r := congrArg Prod.snd hinj
          subst e1
          subst e2
          refine ⟨List.mem_cons_self .., List.mem_of_find?_eq_some hf,
            List.find?_some hf, ?_⟩
          intro p2 hp2 r2 hr2 hq2
          rcases List.mem_cons.1 hp2 with he | hmem
          · subst he
            exact Or.inr ⟨rfl, find?_first hpws hf r2 hr2 hq2⟩
          · exact Or.inl ((List.pairwise_cons.1 hpwh).1 p2 hmem)
      | none =>
          rw [hf] at hres
          obtain ⟨hpm, hrm, hq, hmin⟩ := ih ss (List.pairwise_cons.1 hpwh).2 hpws hres
          refine ⟨List.mem_cons_of_mem _ hpm, hrm, hq, ?_⟩
          intro p2 hp2 r2 hr2 hq2
          rcases List.mem_cons.1 hp2 with he | hmem
          · exfalso
            rw [he] at hq2
            rw [Bool.eq_false_iff.2 (List.find?_eq_none.1 hf r2 hr2)] at hq2
            exact Bool.noConfusion hq2
          · exact hmin p2 hmem r2 hr2 hq2

theorem isBlockingAt_iff {n : Nat} {hospital_prefs student_prefs : List (List Nat)}
    {matching : List (Option Nat)}
    (HP : PermTable n hospital_prefs) (SP : PermTable n student_prefs)
    (hall : ∀ h, h < n → ∃ s, s < n ∧ getO matching h = some s)
    (hinj : ∀ h1 h2, h1 < n → h2 < n →
      getO matching h1 = getO matching h2 → h1 = h2)
    {p r : Nat} (hp : p < n) (hr : r < n) :
    (isBlockingAt (buildRanking n hospital_prefs) (buildRanking n student_prefs)
      matching (buildStudentMatch n matching) p r = true) ↔
    SpecBlocking n hospital_prefs student_prefs matching p r := by
  obtain ⟨cs, hcs_lt, hcs⟩ := hall p hp
  obtain ⟨q, hq, hflip⟩ := matching_surj hall hinj r hr
  have hall2 : ∀ h, h < n → getO matching h ≠ none := by
    intro h hh hc
    obtain ⟨s, _, he⟩ := hall h hh
    rw [he] at hc
    exact Option.noConfusion hc
  have hbsm : getO (buildStudentMatch n matching) r = some q :=
    buildStudentMatch_eq hall2 hinj hr hq hflip
  unfold isBlockingAt
  rw [hcs, hbsm]
  simp only [Option.getD_some]
  by_cases hcr : cs = r
  · rw [if_pos hcr]
    refine iff_of_false (by simp) ?_
    intro hB
    exact hB.2.2.1 (by rw [hcs, hcr])
  · rw [if_neg hcr]
    rw [Bool.and_eq_true, decide_eq_true_eq, decide_eq_true_eq]
    constructor
    · rintro ⟨hA, hB⟩
      refine ⟨hp, hr, ?_, ?_, ?_⟩
      · rw [hcs]; intro hc; exact hcr (Option.some.inj hc)
      · intro s2 hs2
        have hscs : s2 = cs := by rw [hcs] at hs2; exact (Option.some.inj hs2).symm
        subst hscs
        rw [← table_rank_eq HP hp hr, ← table_rank_eq HP hp hcs_lt]
        exact hA
      · intro q2 hq2 he2
        have hqq : q2 = q := hinj q2 q hq2 hq (he2.trans hflip.symm)
        subst hqq
        rw [← table_rank_eq SP hr hp, ← table_rank_eq SP hr hq]
        exact hB
    · rintro ⟨_, _, _, h4, h5⟩
      constructor
      · rw [table_rank_eq HP hp hr, table_rank_eq HP hp hcs_lt]
        exact h4 cs hcs
      · rw [table_rank_eq SP hr hp, table_rank_eq SP hr hq]
        exact h5 q hq hflip

/-- C4: on permutation preference tables and a structurally valid pairing,
the stability scan returns no witness exactly when no blocking pair
exists, and when it returns a witness `(p, r)`, that pair is a blocking
pair and is the first one in the fixed enumeration order (outer proposer
index ascending, inner receiver index ascending). -/
theorem check_stability_correct {n : Nat}
    {hospital_prefs student_prefs : List (List Nat)} {matching : List (Option Nat)}
    (HP : PermTable n hospital_prefs) (SP : PermTable n student_prefs)
    (hall : ∀ h, h < n → ∃ s, s < n ∧ getO matching h = some s)
    (hinj : ∀ h1 h2, h1 < n → h2 < n →
      getO matching h1 = getO matching h2 → h1 = h2) :
    (check_stability n hospital_prefs student_prefs matching = none ↔
      ∀ p r, ¬ SpecBlocking n hospital_prefs student_prefs matching p r) ∧
    (∀ p r, check_stability n hospital_prefs student_prefs matching = some (p, r) →
      SpecBlocking n hospital_prefs student_prefs matching p r ∧
      ∀ p2 r2, SpecBlocking n hospital_prefs student_prefs matching p2 r2 →
        p < p2 ∨ (p = p2 ∧ r ≤ r2)) := by
  constructor
  · constructor
    · intro hnone p r hB
      have hp := hB.1
      have hr := hB.2.1
      have hpred := (isBlockingAt_iff HP SP hall hinj hp hr).2 hB
      have hfalse := findBlocking_none_forall (List.range n) (List.range n)
        (by unfold check_stability at hnone; exact hnone)
        p (List.mem_range.2 hp) r (List.mem_range.2 hr)
      rw [hpred] at hfalse
      exact Bool.noConfusion hfalse
    · intro hno
      unfold check_stability
      refine findBlocking_eq_none _ _ ?_
      intro p hpm r hrm
      have hp := List.mem_range.1 hpm
      have hr := List.mem_range.1 hrm
      cases hb : isBlockingAt (buildRanking n hospital_prefs)
          (buildRanking n student_prefs) matching (buildStudentMatch n matching) p r with
      | false => rfl
      | true =>
          exact absurd ((isBlockingAt_iff HP SP hall hinj hp hr).1 hb) (hno p r)
  · intro p r hsome
    obtain ⟨hpm, hrm, hpred, hmin⟩ := findBlocking_some_spec (List.range n)
      (List.range n) (List.pairwise_lt_range n) (List.pairwise_lt_range n)
      (by unfold check_stability at hsome; exact hsome)
    have hp := List.mem_range.1 hpm
    have hr := List.mem_range.1 hrm
    refine ⟨(isBlockingAt_iff HP SP hall hinj hp hr).1 hpred, ?_⟩
    intro p2 r2 hB2
    exact hmin p2 (List.mem_range.2 hB2.1) r2 (List.mem_range.2 hB2.2.1)
      ((isBlockingAt_iff HP SP hall hinj hB2.1 hB2.2.1).2 hB2)

theorem check_stability_correct_witness :
    (PermTable 2 [[1,0],[0,1]] ∧
     (∀ h, h < 2 → ∃ s, s < 2 ∧ getO [some 0, some 1] h = some s)) ∧
    ((check_stability 2 [[1,0],[0,1]] [[1,0],[0,1]] [some 0, some 1] = none ↔
      ∀ p r, ¬ SpecBlocking 2 [[1,0],[0,1]] [[1,0],[0,1]] [some 0, some 1] p r) ∧
     (∀ p r, check_stability 2 [[1,0],[0,1]] [[1,0],[0,1]] [some 0, some 1]
        = some (p, r) →
      SpecBlocking 2 [[1,0],[0,1]] [[1,0],[0,1]] [some 0, some 1] p r ∧
      ∀ p2 r2, SpecBlocking 2 [[1,0],[0,1]] [[1,0],[0,1]] [some 0, some 1] p2 r2 →
        p < p2 ∨ (p = p2 ∧ r ≤ r2))) := by
  have hinj2 : ∀ h1 h2, h1 < 2 → h2 < 2 →
      getO [some 0, some 1] h1 = getO [some 0, some 1] h2 → h1 = h2 := by
    have hd : ∀ h1, h1 < 2 → ∀ h2, h2 < 2 →
        getO [some 0, some 1] h1 = getO [some 0, some 1] h2 → h1 = h2 := by decide
    intro h1 h2 hh1 hh2
    exact hd h1 hh1 h2 hh2
  exact ⟨⟨by decide, by decide⟩,
    @check_stability_correct 2 [[1,0],[0,1]] [[1,0],[0,1]] [some 0, some 1]
      (by decide) (by decide) (by decide) hinj2⟩
